import Mathlib

/-!
Shallow embedding of `src/acse_la/gauss.py`.

Matrices are lists of rows of rationals (Python floats are idealised as
exact rationals, the standard real-arithmetic reading of the algorithm).
Python exceptions are modelled with an `Except` monad: an out-of-range
list subscript raises `IndexError`, division by (exactly) zero raises
`ZeroDivisionError`, the explicit `raise ValueError` in `matmul` is
`valueError`, and reading the never-assigned local `my_det` when the
back-substitution loop runs zero times is `nameError`.
-/

namespace AcseLa

/-- Python exception kinds that the functions in `gauss.py` can raise. -/
inductive Err where
  | indexError
  | zeroDiv
  | valueError
  | nameError
  deriving DecidableEq

/-- A matrix: a list of rows, each a list of rationals. -/
abbrev Mat := List (List ℚ)

/-- `m[i]` on the outer list: row access, `IndexError` when out of range. -/
def getRow (m : Mat) (i : ℕ) : Except Err (List ℚ) :=
  match m[i]? with
  | some r => .ok r
  | none => .error .indexError

/-- `m[i][j]`: element read, `IndexError` when either index is out of range. -/
def getE (m : Mat) (i j : ℕ) : Except Err ℚ := do
  let r ← getRow m i
  match r[j]? with
  | some v => .ok v
  | none => .error .indexError

/-- `m[i][j] = v`: element write.  In `gauss.py` every write is preceded by a
read of the same cell, so the in-range check is already done by `getE`;
out-of-range writes never happen and `List.set`'s silent no-op is unreachable. -/
def set2 (m : Mat) (i j : ℕ) (v : ℚ) : Mat :=
  match m[i]? with
  | some r => m.set i (r.set j v)
  | none => m

/-- Division, raising `ZeroDivisionError` on an exactly-zero divisor
(Python raises it for both `int` and `float` zero divisors). -/
def divE (x y : ℚ) : Except Err ℚ :=
  if y = 0 then .error .zeroDiv else .ok (x / y)

/-- `len(m[0])`: row-0 length, `IndexError` on an empty outer list. -/
def headLen (m : Mat) : Except Err ℕ := do
  let r ← getRow m 0
  .ok r.length

/-- `m[i], m[k] = m[k], m[i]`: swap two rows (both reads may raise). -/
def swapRows (m : Mat) (i k : ℕ) : Except Err Mat := do
  let ri ← getRow m i
  let rk ← getRow m k
  .ok ((m.set i rk).set k ri)

/-- The pivot-search loop of `gauss` (lines 50-53):
`k = i; for j in range(i+1, n): if abs(a[j][i]) > abs(a[k][i]): k = j`.
The argument list is the remaining values of `j`; `k` is the accumulator. -/
def pivotLoop (a : Mat) (i : ℕ) : List ℕ → ℕ → Except Err ℕ
  | [], k => .ok k
  | j :: js, k => do
    let x ← getE a j i
    let y ← getE a k i
    pivotLoop a i js (if |x| > |y| then j else k)

/-- `for k in ks: m[d][k] -= t*m[s][k]` — the row-combination loop used on
`a` (line 61-62), on `b` in forward elimination (line 63-64), and on `b` in
back-substitution (line 69-70). -/
def rowSub (m : Mat) (d s : ℕ) (t : ℚ) : List ℕ → Except Err Mat
  | [] => .ok m
  | k :: ks => do
    let v ← getE m d k
    let u ← getE m s k
    rowSub (set2 m d k (v - t * u)) d s t ks

/-- The elimination loop over rows `j` below the pivot (lines 59-64):
`t = a[j][i]/a[i][i]`, then row-combine `a` (columns `i+1..n-1`) and `b`
(columns `0..p-1`). -/
def elimRows (n p i : ℕ) : List ℕ → Mat × Mat → Except Err (Mat × Mat)
  | [], st => .ok st
  | j :: js, (a, b) => do
    let x ← getE a j i
    let y ← getE a i i
    let t ← divE x y
    let a ← rowSub a j i t (List.range' (i + 1) (n - 1 - i))
    let b ← rowSub b j i t (List.range p)
    elimRows n p i js (a, b)

/-- One iteration of the forward-elimination outer loop (lines 49-64) for
pivot column `i`, on the locals `a`, `b`, `det` of the Python function.  The
swap counter `s` is ghost instrumentation (incremented exactly when line 57
negates `det`) and does not influence any computed value. -/
def phase1Step (n p i : ℕ) (a b : Mat) (det : ℚ) (s : ℕ) :
    Except Err (Mat × Mat × ℚ × ℕ) := do
  let k ← pivotLoop a i (List.range' (i + 1) (n - 1 - i)) i
  let (a, b, det, s) ←
    if k ≠ i then do
      let a ← swapRows a i k
      let b ← swapRows b i k
      Except.ok (a, b, -det, s + 1)
    else Except.ok (a, b, det, s)
  let (a, b) ← elimRows n p i (List.range' (i + 1) (n - 1 - i)) (a, b)
  .ok (a, b, det, s)

/-- The forward-elimination outer loop: `for i in range(n-1): ...`. -/
def phase1 (n p : ℕ) : List ℕ → Mat × Mat × ℚ × ℕ →
    Except Err (Mat × Mat × ℚ × ℕ)
  | [], st => .ok st
  | i :: is, (a, b, det, s) => do
    let st ← phase1Step n p i a b det s
    phase1 n p is st

/-- The inner loop of back-substitution for row `i` (lines 67-70):
`for j in range(i+1, n): t = a[i][j]; for k in range(p): b[i][k] -= t*b[j][k]`. -/
def backJLoop (a : Mat) (i p : ℕ) : List ℕ → Mat → Except Err Mat
  | [], b => .ok b
  | j :: js, b => do
    let t ← getE a i j
    let b ← rowSub b i j t (List.range p)
    backJLoop a i p js b

/-- `for j in js: m[i][j] *= t` — the normalisation loop (lines 74-75). -/
def scaleRow (m : Mat) (i : ℕ) (t : ℚ) : List ℕ → Except Err Mat
  | [] => .ok m
  | j :: js => do
    let v ← getE m i j
    scaleRow (set2 m i j (v * t)) i t js

/-- The back-substitution outer loop (lines 66-75), `i` descending from
`n-1` to `0`: eliminate solved rows below, then `t = 1/a[i][i]`,
`det *= a[i][i]`, and scale row `i` of `b` by `t`.  `a` is only read here. -/
def phase2 (a : Mat) (n p : ℕ) : List ℕ → Mat × ℚ → Except Err (Mat × ℚ)
  | [], st => .ok st
  | i :: is, (b, det) => do
    let b ← backJLoop a i p (List.range' (i + 1) (n - 1 - i)) b
    let piv ← getE a i i
    let t ← divE 1 piv
    let b ← scaleRow b i t (List.range p)
    phase2 a n p is (b, det * piv)

/-- `gauss(a, b)` (lines 8-76).  `copy.deepcopy` gives the function private
value copies, which a pure function has by construction.  `n = len(a)`,
`p = len(b[0])`, `det` starts at `1.0`; forward elimination, then
back-substitution.  `my_det` is only assigned inside the second loop, so with
`n = 0` the `return my_det, b` raises `NameError`; otherwise `my_det` is the
final value of the determinant accumulator. -/
def gauss (a b : Mat) : Except Err (ℚ × Mat) := do
  let n := a.length
  let p ← headLen b
  let st ← phase1 n p (List.range (n - 1)) (a, b, 1, 0)
  let (a1, b1, det1, _s) := st
  let (b2, det2) ← phase2 a1 n p (List.range n).reverse (b1, det1)
  if n = 0 then .error .nameError else .ok (det2, b2)

/-- `zeromat(p, q)` (line 107): `[[0]*q for i in range(p)]`. -/
def zeromat (p q : ℕ) : Mat :=
  (List.range p).map fun _ => List.replicate q (0 : ℚ)

/-- `sum(a[i][k]*b[j][k] for k in range(p))` (line 142).  Python's `sum`
accumulates left to right and evaluates `a[i][k]` then `b[j][k]` for each
`k` in ascending order, so errors surface at the smallest failing `k`. -/
def dotSum (a b : Mat) (i j : ℕ) : List ℕ → Except Err ℚ
  | [] => .ok 0
  | k :: ks => do
    let x ← getE a i k
    let y ← getE b j k
    let r ← dotSum a b i j ks
    .ok (x * y + r)

/-- The inner `for j in range(q)` loop of `matmul` (lines 141-142),
writing `c[i][j]` for one fixed `i`. -/
def matmulJ (a b : Mat) (i p : ℕ) : List ℕ → Mat → Except Err Mat
  | [], c => .ok c
  | j :: js, c => do
    let s ← dotSum a b i j (List.range p)
    matmulJ a b i p js (set2 c i j s)

/-- The outer `for i in range(n)` loop of `matmul` (lines 140-142). -/
def matmulI (a b : Mat) (p q : ℕ) : List ℕ → Mat → Except Err Mat
  | [], c => .ok c
  | i :: is, c => do
    let c ← matmulJ a b i p (List.range q) c
    matmulI a b p q is c

/-- `matmul(a, b)` (lines 109-143): read the four dimensions (row-0 accesses
may raise `IndexError` on empty inputs), `raise ValueError` when the inner
dimensions differ, else fill `c = zeromat(n, q)` with
`c[i][j] = sum(a[i][k]*b[j][k] for k in range(p))`. -/
def matmul (a b : Mat) : Except Err Mat := do
  let n := a.length
  let p ← headLen a
  let p1 := b.length
  let q ← headLen b
  if p ≠ p1 then .error .valueError
  else matmulI a b p q (List.range n) (zeromat n q)

/-- Total element lookup with default `0`, used to state properties. -/
def dget (m : Mat) (i j : ℕ) : ℚ := (m.getD i []).getD j 0

/-- Product of the diagonal entries `a[0][0] * ... * a[n-1][n-1]`. -/
def diagProd (a : Mat) (n : ℕ) : ℚ :=
  ((List.range n).map fun i => dget a i i).prod

/-- Modelled from the spec: standard matrix multiplication,
`C[i][j] = Σ_k A[i][k]·B[k][j]`, stated for comparison with `matmul`. -/
def mulSpec (a b : Mat) : Mat :=
  (List.range a.length).map fun i =>
    (List.range (b.headI.length)).map fun j =>
      ((List.range (a.headI.length)).map fun k => dget a i k * dget b k j).sum

/-!
## Reference-semantics (heap) model of `gauss`

The Python lists are mutable objects.  To state the aliasing claim — `gauss`
mutates only the `copy.deepcopy` copies made on lines 44-45, never the
caller's lists — the row objects are put in an explicit store: a `Store` is
the allocation arena of row objects, and a Python matrix value is a `Ptrs`
list of row pointers.  `a[i][j] = v` mutates the row object in the store,
affecting every alias of that row; `a[i], a[k] = a[k], a[i]` permutes the
pointer list held by the local variable.  `deepcopy` allocates fresh rows at
the end of the store (it is modelled for callers whose matrix does not alias
the same row object at two indices; `copy.deepcopy`'s memo would preserve
such internal sharing).  Each `h*` function is the same source line as its
pure counterpart, re-read with explicit references.
-/

/-- The row-object arena: pointer `q` names the row `σ[q]`. -/
abbrev Store := List (List ℚ)

/-- A Python matrix object: the list of its row pointers. -/
abbrev Ptrs := List ℕ

/-- The value a matrix object denotes: its rows read out of the store. -/
def matVal (σ : Store) (ps : Ptrs) : Mat := ps.map fun q => σ.getD q []

/-- `m[i]` under references: fetch the row pointer, then the row object. -/
def hGetRow (σ : Store) (ps : Ptrs) (i : ℕ) : Except Err (List ℚ) :=
  match ps[i]? with
  | some q => .ok (σ.getD q [])
  | none => .error .indexError

/-- `m[i][j]` under references. -/
def hGetE (σ : Store) (ps : Ptrs) (i j : ℕ) : Except Err ℚ := do
  let r ← hGetRow σ ps i
  match r[j]? with
  | some v => .ok v
  | none => .error .indexError

/-- `m[i][j] = v` under references: mutate the row object `ps[i]` in place. -/
def hSet2 (σ : Store) (ps : Ptrs) (i j : ℕ) (v : ℚ) : Store :=
  match ps[i]? with
  | some q => σ.set q ((σ.getD q []).set j v)
  | none => σ

/-- Reading the row pointer `m[i]` (`IndexError` when out of range). -/
def hPtr (ps : Ptrs) (i : ℕ) : Except Err ℕ :=
  match ps[i]? with
  | some q => .ok q
  | none => .error .indexError

/-- `m[i], m[k] = m[k], m[i]` under references: swap the two row pointers
inside the (fresh, unaliased) outer list; no row object is copied. -/
def hSwapRows (ps : Ptrs) (i k : ℕ) : Except Err Ptrs := do
  let qi ← hPtr ps i
  let qk ← hPtr ps k
  .ok ((ps.set i qk).set k qi)

/-- `len(m[0])` under references. -/
def hHeadLen (σ : Store) (ps : Ptrs) : Except Err ℕ := do
  let r ← hGetRow σ ps 0
  .ok r.length

/-- The pivot-search loop (lines 50-53) under references. -/
def hPivotLoop (σ : Store) (ps : Ptrs) (i : ℕ) : List ℕ → ℕ → Except Err ℕ
  | [], k => .ok k
  | j :: js, k => do
    let x ← hGetE σ ps j i
    let y ← hGetE σ ps k i
    hPivotLoop σ ps i js (if |x| > |y| then j else k)

/-- `for k in ks: m[d][k] -= t*m[s][k]` under references. -/
def hRowSub (ps : Ptrs) (d s : ℕ) (t : ℚ) : List ℕ → Store → Except Err Store
  | [], σ => .ok σ
  | k :: ks, σ => do
    let v ← hGetE σ ps d k
    let u ← hGetE σ ps s k
    hRowSub ps d s t ks (hSet2 σ ps d k (v - t * u))

/-- The elimination loop (lines 59-64) under references. -/
def hElimRows (n p i : ℕ) (psA psB : Ptrs) : List ℕ → Store → Except Err Store
  | [], σ => .ok σ
  | j :: js, σ => do
    let x ← hGetE σ psA j i
    let y ← hGetE σ psA i i
    let t ← divE x y
    let σ ← hRowSub psA j i t (List.range' (i + 1) (n - 1 - i)) σ
    let σ ← hRowSub psB j i t (List.range p) σ
    hElimRows n p i psA psB js σ

/-- One forward-elimination step (lines 49-64) under references. -/
def hPhase1Step (n p i : ℕ) (σ : Store) (psA psB : Ptrs) (det : ℚ) (s : ℕ) :
    Except Err (Store × Ptrs × Ptrs × ℚ × ℕ) := do
  let k ← hPivotLoop σ psA i (List.range' (i + 1) (n - 1 - i)) i
  let (psA, psB, det, s) ←
    if k ≠ i then do
      let psA ← hSwapRows psA i k
      let psB ← hSwapRows psB i k
      Except.ok (psA, psB, -det, s + 1)
    else Except.ok (psA, psB, det, s)
  let σ ← hElimRows n p i psA psB (List.range' (i + 1) (n - 1 - i)) σ
  .ok (σ, psA, psB, det, s)

/-- The forward-elimination outer loop under references. -/
def hPhase1 (n p : ℕ) : List ℕ → Store × Ptrs × Ptrs × ℚ × ℕ →
    Except Err (Store × Ptrs × Ptrs × ℚ × ℕ)
  | [], st => .ok st
  | i :: is, (σ, psA, psB, det, s) => do
    let st ← hPhase1Step n p i σ psA psB det s
    hPhase1 n p is st

/-- The inner back-substitution loop (lines 67-70) under references. -/
def hBackJLoop (psA psB : Ptrs) (i p : ℕ) : List ℕ → Store → Except Err Store
  | [], σ => .ok σ
  | j :: js, σ => do
    let t ← hGetE σ psA i j
    let σ ← hRowSub psB i j t (List.range p) σ
    hBackJLoop psA psB i p js σ

/-- The normalisation loop (lines 74-75) under references. -/
def hScaleRow (ps : Ptrs) (i : ℕ) (t : ℚ) : List ℕ → Store → Except Err Store
  | [], σ => .ok σ
  | j :: js, σ => do
    let v ← hGetE σ ps i j
    hScaleRow ps i t js (hSet2 σ ps i j (v * t))

/-- The back-substitution outer loop (lines 66-75) under references. -/
def hPhase2 (psA psB : Ptrs) (n p : ℕ) : List ℕ → Store × ℚ →
    Except Err (Store × ℚ)
  | [], st => .ok st
  | i :: is, (σ, det) => do
    let σ ← hBackJLoop psA psB i p (List.range' (i + 1) (n - 1 - i)) σ
    let piv ← hGetE σ psA i i
    let t ← divE 1 piv
    let σ ← hScaleRow psB i t (List.range p) σ
    hPhase2 psA psB n p is (σ, det * piv)

/-- `copy.deepcopy(m)` for a matrix object without internal row aliasing:
allocate one fresh row object per row, holding a copy of its value, and a
fresh outer list pointing at them. -/
def deepcopy (σ : Store) (ps : Ptrs) : Store × Ptrs :=
  (σ ++ ps.map (fun q => σ.getD q []), List.range' σ.length ps.length)

/-- Frame predicate: `σ2` has the same extent as `σ` and agrees with it on
every row object whose pointer is not in the working set `W`. -/
def offAgree (σ σ2 : Store) (W : Ptrs) : Prop :=
  σ2.length = σ.length ∧ ∀ q, q ∉ W → σ2.getD q [] = σ.getD q []

/-- The body of `gauss` after the two deep copies (lines 46-76), operating
on the copies' objects `psA`, `psB` in store `σ2`. -/
def hGaussCore (σ2 : Store) (psA psB : Ptrs) : Except Err (Store × ℚ × Ptrs) := do
  let n := psA.length
  let p ← hHeadLen σ2 psB
  let st ← hPhase1 n p (List.range (n - 1)) (σ2, psA, psB, 1, 0)
  let (σ3, psA1, psB1, det1, _s) := st
  let (σ4, det2) ← hPhase2 psA1 psB1 n p (List.range n).reverse (σ3, det1)
  if n = 0 then .error .nameError else .ok (σ4, det2, psB1)

/-- `gauss(a, b)` under references (lines 8-76): deep-copy both arguments
(lines 44-45), then run both phases mutating only the copies; the result is
the final store, the determinant, and the (fresh) solution-matrix object. -/
def hGauss (σ : Store) (pa pb : Ptrs) : Except Err (Store × ℚ × Ptrs) :=
  let (σ1, psA) := deepcopy σ pa
  let (σ2, psB) := deepcopy σ1 pb
  hGaussCore σ2 psA psB

/-! ## Basic lemmas about the embedding's primitives -/

@[simp] lemma ok_bind {α β : Type} (x : α) (f : α → Except Err β) :
    (Except.ok x >>= f) = f x := rfl

@[simp] lemma error_bind {α β : Type} (e : Err) (f : α → Except Err β) :
    ((Except.error e : Except Err α) >>= f) = .error e := rfl

lemma getRow_ok {m : Mat} {i : ℕ} (h : i < m.length) :
    getRow m i = .ok (m.getD i []) := by
  unfold getRow
  rw [List.getElem?_eq_getElem h, List.getD_eq_getElem _ _ h]

lemma getRow_err {m : Mat} {i : ℕ} (h : m.length ≤ i) :
    getRow m i = .error .indexError := by
  unfold getRow
  rw [List.getElem?_eq_none h]

lemma getD_mem {m : Mat} {i : ℕ} (h : i < m.length) : m.getD i [] ∈ m := by
  rw [List.getD_eq_getElem _ _ h]
  exact List.getElem_mem h

lemma getE_ok {m : Mat} {i j : ℕ} (hi : i < m.length)
    (hj : j < (m.getD i []).length) : getE m i j = .ok (dget m i j) := by
  unfold getE
  rw [getRow_ok hi]
  simp only [ok_bind]
  rw [List.getElem?_eq_getElem hj, dget, List.getD_eq_getElem _ _ hj]

lemma getE_err_kind {m : Mat} {i j : ℕ} {e : Err}
    (h : getE m i j = .error e) : e = .indexError := by
  unfold getE getRow at h
  cases h1 : m[i]? with
  | none => simp [h1] at h; exact h.symm
  | some r =>
    simp only [h1, ok_bind] at h
    cases h2 : r[j]? with
    | none => simp [h2] at h; exact h.symm
    | some v => simp [h2] at h

lemma getE_ok_val {m : Mat} {i j : ℕ} {v : ℚ}
    (h : getE m i j = .ok v) : v = dget m i j := by
  unfold getE getRow at h
  cases h1 : m[i]? with
  | none => simp [h1] at h
  | some r =>
    simp only [h1, ok_bind] at h
    cases h2 : r[j]? with
    | none => simp [h2] at h
    | some w =>
      simp only [h2, Except.ok.injEq] at h
      subst h
      simp [dget, List.getD, h1, h2]

@[simp] lemma set2_length (m : Mat) (i j : ℕ) (v : ℚ) :
    (set2 m i j v).length = m.length := by
  unfold set2
  cases h : m[i]? <;> simp

lemma set2_rows {m : Mat} {q : ℕ} (hm : ∀ r ∈ m, r.length = q)
    (i j : ℕ) (v : ℚ) : ∀ r ∈ set2 m i j v, r.length = q := by
  unfold set2
  cases h : m[i]? with
  | none => exact hm
  | some r0 =>
    intro r hr
    rcases List.mem_or_eq_of_mem_set hr with hr | rfl
    · exact hm r hr
    · rw [List.length_set]
      exact hm r0 (List.getElem?_mem h)

/-! ## Error analysis of `matmul` (C8, C10) -/

lemma dotSum_err_kind {a b : Mat} {i j : ℕ} {e : Err} :
    ∀ {ks : List ℕ}, dotSum a b i j ks = .error e → e = .indexError := by
  intro ks
  induction ks with
  | nil => intro h; simp [dotSum] at h
  | cons k ks ih =>
    intro h
    unfold dotSum at h
    cases h1 : getE a i k with
    | error e1 => simp [h1] at h; exact h ▸ getE_err_kind h1
    | ok x =>
      simp only [h1, ok_bind] at h
      cases h2 : getE b j k with
      | error e2 => simp [h2] at h; exact h ▸ getE_err_kind h2
      | ok y =>
        simp only [h2, ok_bind] at h
        cases h3 : dotSum a b i j ks with
        | error e3 => simp [h3] at h; subst h; exact ih h3
        | ok r => simp [h3] at h

lemma matmulJ_err_kind {a b : Mat} {i p : ℕ} {e : Err} :
    ∀ {js : List ℕ} {c : Mat}, matmulJ a b i p js c = .error e → e = .indexError := by
  intro js
  induction js with
  | nil => intro c h; simp [matmulJ] at h
  | cons j js ih =>
    intro c h
    unfold matmulJ at h
    cases h1 : dotSum a b i j (List.range p) with
    | error e1 => simp [h1] at h; exact h ▸ dotSum_err_kind h1
    | ok s => simp only [h1, ok_bind] at h; exact ih h

lemma matmulI_err_kind {a b : Mat} {p q : ℕ} {e : Err} :
    ∀ {is : List ℕ} {c : Mat}, matmulI a b p q is c = .error e → e = .indexError := by
  intro is
  induction is with
  | nil => intro c h; simp [matmulI] at h
  | cons i is ih =>
    intro c h
    unfold matmulI at h
    cases h1 : matmulJ a b i p (List.range q) c with
    | error e1 => simp [h1] at h; exact h ▸ matmulJ_err_kind h1
    | ok c1 => simp only [h1, ok_bind] at h; exact ih h

lemma matmulJ_shape {a b : Mat} {n q : ℕ} {i p : ℕ} :
    ∀ {js : List ℕ} {c c1 : Mat}, matmulJ a b i p js c = .ok c1 →
      c.length = n → (∀ r ∈ c, r.length = q) →
      c1.length = n ∧ ∀ r ∈ c1, r.length = q := by
  intro js
  induction js with
  | nil =>
    intro c c1 h hl hr
    simp only [matmulJ, Except.ok.injEq] at h
    exact h ▸ ⟨hl, hr⟩
  | cons j js ih =>
    intro c c1 h hl hr
    unfold matmulJ at h
    cases h1 : dotSum a b i j (List.range p) with
    | error e1 => simp [h1] at h
    | ok s =>
      simp only [h1, ok_bind] at h
      exact ih h (by simp [hl]) (set2_rows hr i j s)

lemma matmulI_shape {a b : Mat} {n q : ℕ} {p : ℕ} :
    ∀ {is : List ℕ} {c c1 : Mat}, matmulI a b p q is c = .ok c1 →
      c.length = n → (∀ r ∈ c, r.length = q) →
      c1.length = n ∧ ∀ r ∈ c1, r.length = q := by
  intro is
  induction is with
  | nil =>
    intro c c1 h hl hr
    simp only [matmulI, Except.ok.injEq] at h
    exact h ▸ ⟨hl, hr⟩
  | cons i is ih =>
    intro c c1 h hl hr
    unfold matmulI at h
    cases h1 : matmulJ a b i p (List.range q) c with
    | error e1 => simp [h1] at h
    | ok c0 =>
      simp only [h1, ok_bind] at h
      obtain ⟨h2, h3⟩ := matmulJ_shape h1 hl hr
      exact ih h h2 h3

lemma headLen_ok {m : Mat} {l : ℕ} (hm : 0 < m.length)
    (hr : ∀ r ∈ m, r.length = l) : headLen m = .ok l := by
  unfold headLen
  rw [getRow_ok hm]
  simp only [ok_bind, Except.ok.injEq]
  exact hr _ (getD_mem hm)

lemma dotSum_ok {a b : Mat} {i j : ℕ} : ∀ {ks : List ℕ},
    i < a.length → j < b.length →
    (∀ k ∈ ks, k < (a.getD i []).length) →
    (∀ k ∈ ks, k < (b.getD j []).length) →
    ∃ v, dotSum a b i j ks = .ok v := by
  intro ks
  induction ks with
  | nil => intro _ _ _ _; exact ⟨0, rfl⟩
  | cons k ks ih =>
    intro hi hj hka hkb
    obtain ⟨v, hv⟩ := ih hi hj (fun x hx => hka x (List.mem_cons_of_mem _ hx))
      (fun x hx => hkb x (List.mem_cons_of_mem _ hx))
    refine ⟨dget a i k * dget b j k + v, ?_⟩
    unfold dotSum
    rw [getE_ok hi (hka k (List.mem_cons_self _ _)),
      getE_ok hj (hkb k (List.mem_cons_self _ _)), ok_bind, ok_bind, hv, ok_bind]

lemma matmulJ_ok {a b : Mat} {i p : ℕ} : ∀ {js : List ℕ} (c : Mat),
    (∀ j ∈ js, ∃ v, dotSum a b i j (List.range p) = .ok v) →
    ∃ c1, matmulJ a b i p js c = .ok c1 := by
  intro js
  induction js with
  | nil => intro c _; exact ⟨c, rfl⟩
  | cons j js ih =>
    intro c hjs
    obtain ⟨v, hv⟩ := hjs j (List.mem_cons_self _ _)
    obtain ⟨c1, hc1⟩ := ih (set2 c i j v)
      (fun x hx => hjs x (List.mem_cons_of_mem _ hx))
    exact ⟨c1, by unfold matmulJ; rw [hv, ok_bind, hc1]⟩

lemma matmulJ_append (a b : Mat) (i p : ℕ) :
    ∀ (l1 l2 : List ℕ) (c : Mat),
      matmulJ a b i p (l1 ++ l2) c =
        (matmulJ a b i p l1 c) >>= fun c1 => matmulJ a b i p l2 c1 := by
  intro l1
  induction l1 with
  | nil => intro l2 c; simp [matmulJ]
  | cons j js ih =>
    intro l2 c
    show matmulJ a b i p (j :: (js ++ l2)) c = _
    conv_lhs => rw [matmulJ]
    conv_rhs => rw [matmulJ]
    cases h1 : dotSum a b i j (List.range p) with
    | error e1 => simp [h1]
    | ok s => simp only [h1, ok_bind]; exact ih l2 (set2 c i j s)

/-! ## Basic lemmas about the heap model (C7) -/

lemma swap_into_perm {α : Type} (x d : α) : ∀ (t : List α) (j : ℕ), j < t.length →
    List.Perm (t.getD j d :: t.set j x) (x :: t) := by
  intro t
  induction t with
  | nil => intro j hj; simp at hj
  | cons y t ih =>
    intro j hj
    cases j with
    | zero =>
      simp only [List.getD_cons_zero, List.set_cons_zero]
      exact List.Perm.swap x y t
    | succ m =>
      simp only [List.getD_cons_succ, List.set_cons_succ]
      refine List.Perm.trans (List.Perm.swap y (t.getD m d) (t.set m x)) ?_
      exact List.Perm.trans ((ih m (by simpa using hj)).cons y) (List.Perm.swap x y t)

lemma set_set_perm {α : Type} (d : α) : ∀ (l : List α) (i k : ℕ),
    i < l.length → k < l.length →
    List.Perm ((l.set i (l.getD k d)).set k (l.getD i d)) l := by
  intro l
  induction l with
  | nil => intro i k hi _; simp at hi
  | cons x t ih =>
    intro i k hi hk
    cases i with
    | zero =>
      cases k with
      | zero => simp
      | succ m =>
        simp only [List.getD_cons_zero, List.getD_cons_succ, List.set_cons_zero,
          List.set_cons_succ]
        exact swap_into_perm x d t m (by simpa using hk)
    | succ a =>
      cases k with
      | zero =>
        simp only [List.getD_cons_zero, List.getD_cons_succ, List.set_cons_zero,
          List.set_cons_succ]
        exact swap_into_perm x d t a (by simpa using hi)
      | succ m =>
        simp only [List.getD_cons_succ, List.set_cons_succ]
        exact (ih a m (by simpa using hi) (by simpa using hk)).cons x

lemma matVal_length (σ : Store) (ps : Ptrs) : (matVal σ ps).length = ps.length := by
  simp [matVal]

lemma matVal_getElem? (σ : Store) (ps : Ptrs) (i : ℕ) :
    (matVal σ ps)[i]? = ps[i]?.map fun q => σ.getD q [] := by
  simp [matVal, List.getElem?_map]

lemma hGetRow_corr (σ : Store) (ps : Ptrs) (i : ℕ) :
    hGetRow σ ps i = getRow (matVal σ ps) i := by
  unfold hGetRow getRow
  rw [matVal_getElem?]
  cases hq : ps[i]? <;> simp

lemma hGetE_corr (σ : Store) (ps : Ptrs) (i j : ℕ) :
    hGetE σ ps i j = getE (matVal σ ps) i j := by
  unfold hGetE getE
  rw [hGetRow_corr]

lemma hHeadLen_corr (σ : Store) (ps : Ptrs) :
    hHeadLen σ ps = headLen (matVal σ ps) := by
  unfold hHeadLen headLen
  rw [hGetRow_corr]

lemma offAgree_refl (σ : Store) (W : Ptrs) : offAgree σ σ W := ⟨rfl, fun _ _ => rfl⟩

lemma offAgree_trans {σ σ2 σ3 : Store} {W : Ptrs} (h1 : offAgree σ σ2 W)
    (h2 : offAgree σ2 σ3 W) : offAgree σ σ3 W :=
  ⟨h2.1.trans h1.1, fun q hq => (h2.2 q hq).trans (h1.2 q hq)⟩

lemma offAgree_mono {σ σ2 : Store} {W W2 : Ptrs} (hW : ∀ q ∈ W, q ∈ W2)
    (h : offAgree σ σ2 W) : offAgree σ σ2 W2 :=
  ⟨h.1, fun q hq => h.2 q (fun hmem => hq (hW q hmem))⟩

lemma matVal_of_offAgree {σ σ2 : Store} {W : Ptrs} (h : offAgree σ σ2 W)
    {qs : Ptrs} (hd : ∀ q ∈ qs, q ∉ W) : matVal σ2 qs = matVal σ qs := by
  unfold matVal
  exact List.map_congr_left fun q hq => h.2 q (hd q hq)

lemma matVal_set_store {σ : Store} {ps : Ptrs} (hnd : ps.Nodup)
    (hin : ∀ q ∈ ps, q < σ.length) {i q : ℕ} (hp : ps[i]? = some q)
    (row : List ℚ) : matVal (σ.set q row) ps = (matVal σ ps).set i row := by
  have hi : i < ps.length := by
    by_contra hc
    rw [List.getElem?_eq_none (by omega)] at hp
    exact Option.noConfusion hp
  have hq : q < σ.length := hin q (List.getElem?_mem hp)
  apply List.ext_getElem?
  intro m
  rw [matVal_getElem?]
  by_cases hmi : m = i
  · subst hmi
    rw [hp, List.getElem?_set_self (by rw [matVal_length]; exact hi)]
    simp only [Option.map_some']
    congr 1
    rw [List.getD_eq_getElem?_getD, List.getElem?_set_self hq]
    rfl
  · rw [List.getElem?_set_ne (fun he => hmi he.symm), matVal_getElem?]
    cases hm : ps[m]? with
    | none => rfl
    | some r =>
      simp only [Option.map_some', Option.some.injEq]
      have hrq : r ≠ q := by
        intro he
        subst he
        have hmlt : m < ps.length := by
          by_contra hc
          rw [List.getElem?_eq_none (by omega)] at hm
          exact Option.noConfusion hm
        have : ps[m] = r := by
          have := List.getElem?_eq_getElem hmlt
          rw [hm] at this
          exact (Option.some.injEq _ _).mp this.symm
        have : ps[m] = ps[i] := by
          rw [this]
          have h2 := List.getElem?_eq_getElem hi
          rw [hp] at h2
          exact ((Option.some.injEq _ _).mp h2.symm).symm
        exact hmi ((List.Nodup.getElem_inj_iff hnd).mp this)
      rw [List.getD_eq_getElem?_getD, List.getD_eq_getElem?_getD,
        List.getElem?_set_ne (fun he => hrq he.symm)]

lemma hSet2_corr {σ : Store} {ps : Ptrs} (hnd : ps.Nodup)
    (hin : ∀ q ∈ ps, q < σ.length) (i j : ℕ) (v : ℚ) :
    matVal (hSet2 σ ps i j v) ps = set2 (matVal σ ps) i j v ∧
    offAgree σ (hSet2 σ ps i j v) ps := by
  unfold hSet2 set2
  cases hp : ps[i]? with
  | none =>
    rw [matVal_getElem?, hp]
    exact ⟨rfl, offAgree_refl σ ps⟩
  | some q =>
    have hqmem : q ∈ ps := List.getElem?_mem hp
    have hqlt : q < σ.length := hin q hqmem
    constructor
    · rw [matVal_getElem?, hp]
      simp only [Option.map_some']
      rw [matVal_set_store hnd hin hp]
    · refine ⟨by simp, fun r hr => ?_⟩
      have hrq : r ≠ q := fun he => hr (he ▸ hqmem)
      rw [List.getD_eq_getElem?_getD, List.getD_eq_getElem?_getD,
        List.getElem?_set_ne (fun he => hrq he.symm)]

lemma getD_append_left {σ : Store} (rows : List (List ℚ)) {q : ℕ}
    (hq : q < σ.length) : (σ ++ rows).getD q [] = σ.getD q [] := by
  rw [List.getD_eq_getElem?_getD, List.getD_eq_getElem?_getD,
    List.getElem?_append_left hq]

lemma matVal_append {σ : Store} (rows : List (List ℚ)) {ps : Ptrs}
    (hps : ∀ q ∈ ps, q < σ.length) : matVal (σ ++ rows) ps = matVal σ ps := by
  unfold matVal
  exact List.map_congr_left fun q hq => getD_append_left rows (hps q hq)

lemma deepcopy_matVal (σ : Store) (ps : Ptrs) :
    matVal (deepcopy σ ps).1 (deepcopy σ ps).2 = matVal σ ps := by
  unfold deepcopy matVal
  apply List.ext_getElem
  · simp
  · intro m h1 h2
    simp only [List.getElem_map]
    rw [List.getElem_range'_1]
    have hm : m < ps.length := by simpa using h2
    rw [List.getD_eq_getElem?_getD, List.getElem?_append_right (by omega)]
    have he : σ.length + m - σ.length = m := by omega
    rw [he, List.getElem?_map, List.getElem?_eq_getElem hm]
    rfl

lemma hPivotLoop_corr (σ : Store) (ps : Ptrs) (i : ℕ) :
    ∀ (js : List ℕ) (k : ℕ),
      hPivotLoop σ ps i js k = pivotLoop (matVal σ ps) i js k := by
  intro js
  induction js with
  | nil => intro k; rfl
  | cons j js ih =>
    intro k
    rw [hPivotLoop, pivotLoop, hGetE_corr, hGetE_corr]
    cases h1 : getE (matVal σ ps) j i with
    | error e => rfl
    | ok x =>
      simp only [ok_bind]
      cases h2 : getE (matVal σ ps) k i with
      | error e => rfl
      | ok y =>
        simp only [ok_bind]
        exact ih _

lemma hRowSub_corr (ps : Ptrs) (d s : ℕ) (t : ℚ) :
    ∀ (ks : List ℕ) (σ : Store), ps.Nodup → (∀ q ∈ ps, q < σ.length) →
      Except.map (fun σ2 => matVal σ2 ps) (hRowSub ps d s t ks σ) =
        rowSub (matVal σ ps) d s t ks ∧
      ∀ σ2, hRowSub ps d s t ks σ = .ok σ2 → offAgree σ σ2 ps := by
  intro ks
  induction ks with
  | nil =>
    intro σ _ _
    refine ⟨rfl, fun σ2 h => ?_⟩
    simp only [hRowSub, Except.ok.injEq] at h
    exact h ▸ offAgree_refl σ ps
  | cons k ks ih =>
    intro σ hnd hin
    rw [hRowSub, rowSub, hGetE_corr, hGetE_corr]
    cases h1 : getE (matVal σ ps) d k with
    | error e => exact ⟨rfl, fun σ2 h => by simp at h⟩
    | ok v =>
      simp only [ok_bind]
      cases h2 : getE (matVal σ ps) s k with
      | error e => exact ⟨rfl, fun σ2 h => by simp at h⟩
      | ok u =>
        simp only [ok_bind]
        obtain ⟨hv, hoff⟩ := hSet2_corr hnd hin d k (v - t * u)
        have hin2 : ∀ q ∈ ps, q < (hSet2 σ ps d k (v - t * u)).length :=
          fun q hq => hoff.1 ▸ hin q hq
        obtain ⟨ihmap, ihoff⟩ := ih (hSet2 σ ps d k (v - t * u)) hnd hin2
        refine ⟨by rw [← hv]; exact ihmap, fun σ2 h => ?_⟩
        exact offAgree_trans hoff (ihoff σ2 h)

lemma hScaleRow_corr (ps : Ptrs) (i : ℕ) (t : ℚ) :
    ∀ (js : List ℕ) (σ : Store), ps.Nodup → (∀ q ∈ ps, q < σ.length) →
      Except.map (fun σ2 => matVal σ2 ps) (hScaleRow ps i t js σ) =
        scaleRow (matVal σ ps) i t js ∧
      ∀ σ2, hScaleRow ps i t js σ = .ok σ2 → offAgree σ σ2 ps := by
  intro js
  induction js with
  | nil =>
    intro σ _ _
    refine ⟨rfl, fun σ2 h => ?_⟩
    simp only [hScaleRow, Except.ok.injEq] at h
    exact h ▸ offAgree_refl σ ps
  | cons j js ih =>
    intro σ hnd hin
    rw [hScaleRow, scaleRow, hGetE_corr]
    cases h1 : getE (matVal σ ps) i j with
    | error e => exact ⟨rfl, fun σ2 h => by simp at h⟩
    | ok v =>
      simp only [ok_bind]
      obtain ⟨hv, hoff⟩ := hSet2_corr hnd hin i j (v * t)
      have hin2 : ∀ q ∈ ps, q < (hSet2 σ ps i j (v * t)).length :=
        fun q hq => hoff.1 ▸ hin q hq
      obtain ⟨ihmap, ihoff⟩ := ih (hSet2 σ ps i j (v * t)) hnd hin2
      refine ⟨by rw [← hv]; exact ihmap, fun σ2 h => ?_⟩
      exact offAgree_trans hoff (ihoff σ2 h)

lemma hSwapRows_corr (σ : Store) (ps : Ptrs) (i k : ℕ) :
    Except.map (fun ps2 => matVal σ ps2) (hSwapRows ps i k) =
      swapRows (matVal σ ps) i k ∧
    ∀ ps2, hSwapRows ps i k = .ok ps2 → List.Perm ps2 ps := by
  unfold hSwapRows swapRows hPtr getRow
  cases hp1 : ps[i]? with
  | none =>
    rw [matVal_getElem?, hp1]
    exact ⟨rfl, fun ps2 h => by simp at h⟩
  | some qi =>
    rw [matVal_getElem?, hp1]
    simp only [Option.map_some', ok_bind]
    cases hp2 : ps[k]? with
    | none =>
      rw [matVal_getElem?, hp2]
      exact ⟨rfl, fun ps2 h => by simp at h⟩
    | some qk =>
      rw [matVal_getElem?, hp2]
      simp only [Option.map_some', ok_bind]
      have hi : i < ps.length := by
        by_contra hc
        rw [List.getElem?_eq_none (by omega)] at hp1
        exact Option.noConfusion hp1
      have hk : k < ps.length := by
        by_contra hc
        rw [List.getElem?_eq_none (by omega)] at hp2
        exact Option.noConfusion hp2
      constructor
      · simp only [Except.map, matVal, List.map_set]
      · intro ps2 h
        simp only [Except.ok.injEq] at h
        subst h
        have hqi : qi = ps.getD i 0 := by
          rw [List.getD_eq_getElem?_getD, hp1]; rfl
        have hqk : qk = ps.getD k 0 := by
          rw [List.getD_eq_getElem?_getD, hp2]; rfl
        rw [hqi, hqk]
        exact set_set_perm 0 ps i k hi hk

lemma bounds_of_offAgree {σ σ2 : Store} {W ps : Ptrs} (h : offAgree σ σ2 W)
    (hb : ∀ q ∈ ps, q < σ.length) : ∀ q ∈ ps, q < σ2.length :=
  fun q hq => by rw [h.1]; exact hb q hq

lemma hElimRows_corr (n p i : ℕ) (psA psB : Ptrs) :
    ∀ (js : List ℕ) (σ : Store), psA.Nodup → psB.Nodup →
      (∀ q ∈ psA, q ∉ psB) →
      (∀ q ∈ psA, q < σ.length) → (∀ q ∈ psB, q < σ.length) →
      Except.map (fun σ2 => (matVal σ2 psA, matVal σ2 psB))
          (hElimRows n p i psA psB js σ) =
        elimRows n p i js (matVal σ psA, matVal σ psB) ∧
      ∀ σ2, hElimRows n p i psA psB js σ = .ok σ2 →
        offAgree σ σ2 (psA ++ psB) := by
  intro js
  induction js with
  | nil =>
    intro σ _ _ _ _ _
    refine ⟨rfl, fun σ2 h => ?_⟩
    simp only [hElimRows, Except.ok.injEq] at h
    exact h ▸ offAgree_refl σ _
  | cons j js ih =>
    intro σ hndA hndB hd1 hbA hbB
    have hd2 : ∀ q ∈ psB, q ∉ psA := fun q hq hmem => hd1 q hmem hq
    rw [hElimRows, elimRows, hGetE_corr, hGetE_corr]
    cases h1 : getE (matVal σ psA) j i with
    | error e => exact ⟨rfl, fun σ2 h => by simp at h⟩
    | ok x =>
      simp only [ok_bind]
      cases h2 : getE (matVal σ psA) i i with
      | error e => exact ⟨rfl, fun σ2 h => by simp at h⟩
      | ok y =>
        simp only [ok_bind]
        cases h3 : divE x y with
        | error e => exact ⟨rfl, fun σ2 h => by simp at h⟩
        | ok t =>
          simp only [ok_bind]
          obtain ⟨hmapA, hoffA⟩ :=
            hRowSub_corr psA j i t (List.range' (i + 1) (n - 1 - i)) σ hndA hbA
          cases h4 : hRowSub psA j i t (List.range' (i + 1) (n - 1 - i)) σ with
          | error e =>
            rw [h4] at hmapA
            rw [← hmapA]
            exact ⟨rfl, fun σ2 h => by simp at h⟩
          | ok σ1 =>
            rw [h4] at hmapA
            rw [← hmapA]
            simp only [Except.map, ok_bind]
            have hoff1 : offAgree σ σ1 psA := hoffA σ1 h4
            have hBv : matVal σ1 psB = matVal σ psB := matVal_of_offAgree hoff1 hd2
            obtain ⟨hmapB, hoffB⟩ :=
              hRowSub_corr psB j i t (List.range p) σ1 hndB
                (bounds_of_offAgree hoff1 hbB)
            cases h5 : hRowSub psB j i t (List.range p) σ1 with
            | error e =>
              rw [h5] at hmapB
              rw [hBv] at hmapB
              rw [← hmapB]
              exact ⟨rfl, fun σ2 h => by simp at h⟩
            | ok σ2 =>
              rw [h5] at hmapB
              rw [hBv] at hmapB
              rw [← hmapB]
              simp only [Except.map, ok_bind]
              have hoff2 : offAgree σ1 σ2 psB := hoffB σ2 h5
              have hAv : matVal σ2 psA = matVal σ1 psA :=
                matVal_of_offAgree hoff2 hd1
              rw [← hAv]
              obtain ⟨ihmap, ihoff⟩ := ih σ2 hndA hndB hd1
                (bounds_of_offAgree hoff2 (bounds_of_offAgree hoff1 hbA))
                (bounds_of_offAgree hoff2 (bounds_of_offAgree hoff1 hbB))
              refine ⟨ihmap, fun σ3 h => ?_⟩
              refine offAgree_trans
                (offAgree_mono (fun q hq => List.mem_append_left psB hq) hoff1) ?_
              refine offAgree_trans
                (offAgree_mono (fun q hq => List.mem_append_right psA hq) hoff2) ?_
              exact ihoff σ3 h

lemma hBackJLoop_corr (psA psB : Ptrs) (i p : ℕ) :
    ∀ (js : List ℕ) (σ : Store), psB.Nodup →
      (∀ q ∈ psA, q ∉ psB) → (∀ q ∈ psB, q < σ.length) →
      Except.map (fun σ2 => matVal σ2 psB) (hBackJLoop psA psB i p js σ) =
        backJLoop (matVal σ psA) i p js (matVal σ psB) ∧
      ∀ σ2, hBackJLoop psA psB i p js σ = .ok σ2 → offAgree σ σ2 psB := by
  intro js
  induction js with
  | nil =>
    intro σ _ _ _
    refine ⟨rfl, fun σ2 h => ?_⟩
    simp only [hBackJLoop, Except.ok.injEq] at h
    exact h ▸ offAgree_refl σ _
  | cons j js ih =>
    intro σ hndB hd1 hbB
    rw [hBackJLoop, backJLoop, hGetE_corr]
    cases h1 : getE (matVal σ psA) i j with
    | error e => exact ⟨rfl, fun σ2 h => by simp at h⟩
    | ok t =>
      simp only [ok_bind]
      obtain ⟨hmapB, hoffB⟩ := hRowSub_corr psB i j t (List.range p) σ hndB hbB
      cases h2 : hRowSub psB i j t (List.range p) σ with
      | error e =>
        rw [h2] at hmapB
        rw [← hmapB]
        exact ⟨rfl, fun σ2 h => by simp at h⟩
      | ok σ1 =>
        rw [h2] at hmapB
        rw [← hmapB]
        simp only [Except.map, ok_bind]
        have hoff1 : offAgree σ σ1 psB := hoffB σ1 h2
        have hAv : matVal σ1 psA = matVal σ psA := matVal_of_offAgree hoff1 hd1
        rw [← hAv]
        obtain ⟨ihmap, ihoff⟩ := ih σ1 hndB hd1 (bounds_of_offAgree hoff1 hbB)
        refine ⟨ihmap, fun σ2 h => ?_⟩
        exact offAgree_trans hoff1 (ihoff σ2 h)

lemma hPhase1Step_corr (n p i : ℕ) (σ : Store) (psA psB : Ptrs) (det : ℚ) (s : ℕ)
    (hndA : psA.Nodup) (hndB : psB.Nodup) (hd1 : ∀ q ∈ psA, q ∉ psB)
    (hbA : ∀ q ∈ psA, q < σ.length) (hbB : ∀ q ∈ psB, q < σ.length) :
    Except.map (fun st => (matVal st.1 st.2.1, matVal st.1 st.2.2.1, st.2.2.2))
        (hPhase1Step n p i σ psA psB det s) =
      phase1Step n p i (matVal σ psA) (matVal σ psB) det s ∧
    ∀ σ2 psA2 psB2 det2 s2,
      hPhase1Step n p i σ psA psB det s = .ok (σ2, psA2, psB2, det2, s2) →
      offAgree σ σ2 (psA ++ psB) ∧ List.Perm psA2 psA ∧ List.Perm psB2 psB := by
  unfold hPhase1Step phase1Step
  rw [hPivotLoop_corr]
  cases hk : pivotLoop (matVal σ psA) i (List.range' (i + 1) (n - 1 - i)) i with
  | error e => exact ⟨rfl, fun σ2 psA2 psB2 det2 s2 h => by simp at h⟩
  | ok k =>
    simp only [ok_bind]
    by_cases hki : k ≠ i
    · rw [if_pos hki, if_pos hki]
      obtain ⟨hmapSA, hpermA⟩ := hSwapRows_corr σ psA i k
      cases hsa : hSwapRows psA i k with
      | error e =>
        rw [hsa] at hmapSA
        rw [← hmapSA]
        exact ⟨rfl, fun σ2 psA2 psB2 det2 s2 h => by simp at h⟩
      | ok psA1 =>
        rw [hsa] at hmapSA
        rw [← hmapSA]
        simp only [Except.map, ok_bind]
        obtain ⟨hmapSB, hpermB⟩ := hSwapRows_corr σ psB i k
        cases hsb : hSwapRows psB i k with
        | error e =>
          rw [hsb] at hmapSB
          rw [← hmapSB]
          exact ⟨rfl, fun σ2 psA2 psB2 det2 s2 h => by simp at h⟩
        | ok psB1 =>
          rw [hsb] at hmapSB
          rw [← hmapSB]
          simp only [Except.map, ok_bind]
          have hA1 : List.Perm psA1 psA := hpermA psA1 hsa
          have hB1 : List.Perm psB1 psB := hpermB psB1 hsb
          have hndA1 : psA1.Nodup := hA1.nodup_iff.mpr hndA
          have hndB1 : psB1.Nodup := hB1.nodup_iff.mpr hndB
          have hd11 : ∀ q ∈ psA1, q ∉ psB1 := fun q hq hmem =>
            hd1 q (hA1.mem_iff.mp hq) (hB1.mem_iff.mp hmem)
          have hbA1 : ∀ q ∈ psA1, q < σ.length := fun q hq =>
            hbA q (hA1.mem_iff.mp hq)
          have hbB1 : ∀ q ∈ psB1, q < σ.length := fun q hq =>
            hbB q (hB1.mem_iff.mp hq)
          obtain ⟨hmapE, hoffE⟩ := hElimRows_corr n p i psA1 psB1
            (List.range' (i + 1) (n - 1 - i)) σ hndA1 hndB1 hd11 hbA1 hbB1
          cases he : hElimRows n p i psA1 psB1 (List.range' (i + 1) (n - 1 - i)) σ with
          | error e =>
            rw [he] at hmapE
            rw [← hmapE]
            exact ⟨rfl, fun σ2 psA2 psB2 det2 s2 h => by simp at h⟩
          | ok σ1 =>
            rw [he] at hmapE
            rw [← hmapE]
            simp only [Except.map, ok_bind]
            refine ⟨by simp, fun σ2 psA2 psB2 det2 s2 h => ?_⟩
            simp only [Except.ok.injEq, Prod.mk.injEq] at h
            obtain ⟨h1, h2, h3, -, -⟩ := h
            refine ⟨h1 ▸ ?_, h2 ▸ hA1, h3 ▸ hB1⟩
            refine offAgree_mono ?_ (hoffE σ1 he)
            intro q hq
            rcases List.mem_append.mp hq with hq | hq
            · exact List.mem_append_left _ (hA1.mem_iff.mp hq)
            · exact List.mem_append_right _ (hB1.mem_iff.mp hq)
    · rw [if_neg hki, if_neg hki]
      obtain ⟨hmapE, hoffE⟩ := hElimRows_corr n p i psA psB
        (List.range' (i + 1) (n - 1 - i)) σ hndA hndB hd1 hbA hbB
      cases he : hElimRows n p i psA psB (List.range' (i + 1) (n - 1 - i)) σ with
      | error e =>
        rw [he] at hmapE
        rw [← hmapE]
        exact ⟨rfl, fun σ2 psA2 psB2 det2 s2 h => by simp at h⟩
      | ok σ1 =>
        rw [he] at hmapE
        rw [← hmapE]
        simp only [Except.map, ok_bind]
        refine ⟨by simp, fun σ2 psA2 psB2 det2 s2 h => ?_⟩
        simp only [Except.ok.injEq, Prod.mk.injEq] at h
        obtain ⟨h1, h2, h3, -, -⟩ := h
        exact ⟨h1 ▸ hoffE σ1 he, h2 ▸ List.Perm.refl psA, h3 ▸ List.Perm.refl psB⟩

lemma hPhase1_corr (n p : ℕ) :
    ∀ (is : List ℕ) (σ : Store) (psA psB : Ptrs) (det : ℚ) (s : ℕ),
      psA.Nodup → psB.Nodup → (∀ q ∈ psA, q ∉ psB) →
      (∀ q ∈ psA, q < σ.length) → (∀ q ∈ psB, q < σ.length) →
      Except.map (fun st => (matVal st.1 st.2.1, matVal st.1 st.2.2.1, st.2.2.2))
          (hPhase1 n p is (σ, psA, psB, det, s)) =
        phase1 n p is (matVal σ psA, matVal σ psB, det, s) ∧
      ∀ σ2 psA2 psB2 det2 s2,
        hPhase1 n p is (σ, psA, psB, det, s) = .ok (σ2, psA2, psB2, det2, s2) →
        offAgree σ σ2 (psA ++ psB) ∧ List.Perm psA2 psA ∧ List.Perm psB2 psB := by
  intro is
  induction is with
  | nil =>
    intro σ psA psB det s _ _ _ _ _
    refine ⟨rfl, fun σ2 psA2 psB2 det2 s2 h => ?_⟩
    simp only [hPhase1, Except.ok.injEq, Prod.mk.injEq] at h
    obtain ⟨h1, h2, h3, -, -⟩ := h
    subst h1
    subst h2
    subst h3
    exact ⟨offAgree_refl σ _, List.Perm.refl psA, List.Perm.refl psB⟩
  | cons i is ih =>
    intro σ psA psB det s hndA hndB hd1 hbA hbB
    rw [hPhase1, phase1]
    obtain ⟨hmapS, hpostS⟩ :=
      hPhase1Step_corr n p i σ psA psB det s hndA hndB hd1 hbA hbB
    cases hs : hPhase1Step n p i σ psA psB det s with
    | error e =>
      rw [hs] at hmapS
      rw [← hmapS]
      exact ⟨rfl, fun σ2 psA2 psB2 det2 s2 h => by simp at h⟩
    | ok st =>
      obtain ⟨σ1, psA1, psB1, det1, s1⟩ := st
      rw [hs] at hmapS
      rw [← hmapS]
      simp only [Except.map, ok_bind]
      obtain ⟨hoff1, hA1, hB1⟩ := hpostS σ1 psA1 psB1 det1 s1 hs
      have hndA1 : psA1.Nodup := hA1.nodup_iff.mpr hndA
      have hndB1 : psB1.Nodup := hB1.nodup_iff.mpr hndB
      have hd11 : ∀ q ∈ psA1, q ∉ psB1 := fun q hq hmem =>
        hd1 q (hA1.mem_iff.mp hq) (hB1.mem_iff.mp hmem)
      have hbA1 : ∀ q ∈ psA1, q < σ1.length := fun q hq => by
        rw [hoff1.1]; exact hbA q (hA1.mem_iff.mp hq)
      have hbB1 : ∀ q ∈ psB1, q < σ1.length := fun q hq => by
        rw [hoff1.1]; exact hbB q (hB1.mem_iff.mp hq)
      obtain ⟨ihmap, ihpost⟩ := ih σ1 psA1 psB1 det1 s1 hndA1 hndB1 hd11 hbA1 hbB1
      refine ⟨ihmap, fun σ2 psA2 psB2 det2 s2 h => ?_⟩
      obtain ⟨hoff2, hA2, hB2⟩ := ihpost σ2 psA2 psB2 det2 s2 h
      refine ⟨?_, hA2.trans hA1, hB2.trans hB1⟩
      refine offAgree_trans hoff1 (offAgree_mono ?_ hoff2)
      intro q hq
      rcases List.mem_append.mp hq with hq | hq
      · exact List.mem_append_left _ (hA1.mem_iff.mp hq)
      · exact List.mem_append_right _ (hB1.mem_iff.mp hq)

lemma hPhase2_corr (psA psB : Ptrs) (n p : ℕ) :
    ∀ (is : List ℕ) (σ : Store) (det : ℚ), psB.Nodup →
      (∀ q ∈ psA, q ∉ psB) → (∀ q ∈ psB, q < σ.length) →
      Except.map (fun st => (matVal st.1 psB, st.2))
          (hPhase2 psA psB n p is (σ, det)) =
        phase2 (matVal σ psA) n p is (matVal σ psB, det) ∧
      ∀ σ2 det2, hPhase2 psA psB n p is (σ, det) = .ok (σ2, det2) →
        offAgree σ σ2 psB := by
  intro is
  induction is with
  | nil =>
    intro σ det _ _ _
    refine ⟨rfl, fun σ2 det2 h => ?_⟩
    simp only [hPhase2, Except.ok.injEq, Prod.mk.injEq] at h
    exact h.1 ▸ offAgree_refl σ _
  | cons i is ih =>
    intro σ det hndB hd1 hbB
    rw [hPhase2, phase2]
    obtain ⟨hmapJ, hoffJ⟩ := hBackJLoop_corr psA psB i p
      (List.range' (i + 1) (n - 1 - i)) σ hndB hd1 hbB
    cases hj : hBackJLoop psA psB i p (List.range' (i + 1) (n - 1 - i)) σ with
    | error e =>
      rw [hj] at hmapJ
      rw [← hmapJ]
      exact ⟨rfl, fun σ2 det2 h => by simp at h⟩
    | ok σ1 =>
      rw [hj] at hmapJ
      rw [← hmapJ]
      simp only [Except.map, ok_bind]
      have hoff1 : offAgree σ σ1 psB := hoffJ σ1 hj
      have hAv : matVal σ1 psA = matVal σ psA := matVal_of_offAgree hoff1 hd1
      rw [hGetE_corr, hAv]
      cases hp : getE (matVal σ psA) i i with
      | error e => exact ⟨rfl, fun σ2 det2 h => by simp at h⟩
      | ok piv =>
        simp only [ok_bind]
        cases hd : divE 1 piv with
        | error e => exact ⟨rfl, fun σ2 det2 h => by simp at h⟩
        | ok t =>
          simp only [ok_bind]
          obtain ⟨hmapS, hoffS⟩ := hScaleRow_corr psB i t (List.range p) σ1 hndB
            (bounds_of_offAgree hoff1 hbB)
          cases hsc : hScaleRow psB i t (List.range p) σ1 with
          | error e =>
            rw [hsc] at hmapS
            rw [← hmapS]
            exact ⟨rfl, fun σ2 det2 h => by simp at h⟩
          | ok σ2 =>
            rw [hsc] at hmapS
            rw [← hmapS]
            simp only [Except.map, ok_bind]
            have hoff2 : offAgree σ1 σ2 psB := hoffS σ2 hsc
            have hAv2 : matVal σ2 psA = matVal σ psA := by
              rw [matVal_of_offAgree hoff2 hd1, hAv]
            obtain ⟨ihmap, ihoff⟩ := ih σ2 (det * piv) hndB hd1
              (bounds_of_offAgree hoff2 (bounds_of_offAgree hoff1 hbB))
            rw [hAv2] at ihmap
            refine ⟨ihmap, fun σ3 det3 h => ?_⟩
            exact offAgree_trans hoff1 (offAgree_trans hoff2 (ihoff σ3 det3 h))

lemma deepcopy_len1 (σ : Store) (ps : Ptrs) :
    (deepcopy σ ps).1.length = σ.length + ps.length := by
  simp [deepcopy]

lemma deepcopy_mem2 (σ : Store) (ps : Ptrs) {q : ℕ}
    (h : q ∈ (deepcopy σ ps).2) : σ.length ≤ q ∧ q < σ.length + ps.length := by
  simp only [deepcopy] at h
  exact List.mem_range'_1.mp h

lemma deepcopy_nodup2 (σ : Store) (ps : Ptrs) : (deepcopy σ ps).2.Nodup := by
  simp only [deepcopy]
  exact List.nodup_range' _ _ 1 (by norm_num)

lemma matVal_deepcopy_other (σ : Store) (ps qs : Ptrs)
    (hqs : ∀ q ∈ qs, q < σ.length) :
    matVal (deepcopy σ ps).1 qs = matVal σ qs := by
  show matVal (σ ++ _) qs = _
  exact matVal_append _ hqs

lemma hGaussCore_corr (σ2 : Store) (psA psB : Ptrs)
    (hndA : psA.Nodup) (hndB : psB.Nodup) (hd1 : ∀ q ∈ psA, q ∉ psB)
    (hbA : ∀ q ∈ psA, q < σ2.length) (hbB : ∀ q ∈ psB, q < σ2.length) :
    Except.map (fun r => (r.2.1, matVal r.1 r.2.2)) (hGaussCore σ2 psA psB) =
      gauss (matVal σ2 psA) (matVal σ2 psB) ∧
    ∀ σf d psX, hGaussCore σ2 psA psB = .ok (σf, d, psX) →
      offAgree σ2 σf (psA ++ psB) := by
  unfold hGaussCore gauss
  rw [matVal_length, hHeadLen_corr]
  cases hh : headLen (matVal σ2 psB) with
  | error e => exact ⟨rfl, fun σf d psX h => by simp at h⟩
  | ok p =>
    simp only [ok_bind]
    obtain ⟨hmap1, hpost1⟩ := hPhase1_corr psA.length p
      (List.range (psA.length - 1)) σ2 psA psB 1 0 hndA hndB hd1 hbA hbB
    cases hp1 : hPhase1 psA.length p (List.range (psA.length - 1))
        (σ2, psA, psB, 1, 0) with
    | error e =>
      rw [hp1] at hmap1
      rw [← hmap1]
      exact ⟨rfl, fun σf d psX h => by simp at h⟩
    | ok st =>
      obtain ⟨σ3, psA1, psB1, det1, s1⟩ := st
      rw [hp1] at hmap1
      rw [← hmap1]
      simp only [Except.map, ok_bind]
      obtain ⟨hoff1, hA1, hB1⟩ := hpost1 σ3 psA1 psB1 det1 s1 hp1
      have hndB1 : psB1.Nodup := hB1.nodup_iff.mpr hndB
      have hd11 : ∀ q ∈ psA1, q ∉ psB1 := fun q hq hmem =>
        hd1 q (hA1.mem_iff.mp hq) (hB1.mem_iff.mp hmem)
      have hbB1 : ∀ q ∈ psB1, q < σ3.length := fun q hq => by
        rw [hoff1.1]
        exact hbB q (hB1.mem_iff.mp hq)
      obtain ⟨hmap2, hoff2l⟩ := hPhase2_corr psA1 psB1 psA.length p
        (List.range psA.length).reverse σ3 det1 hndB1 hd11 hbB1
      cases hp2 : hPhase2 psA1 psB1 psA.length p (List.range psA.length).reverse
          (σ3, det1) with
      | error e =>
        rw [hp2] at hmap2
        rw [← hmap2]
        exact ⟨rfl, fun σf d psX h => by simp at h⟩
      | ok r =>
        obtain ⟨σ4, det2⟩ := r
        rw [hp2] at hmap2
        rw [← hmap2]
        simp only [Except.map, ok_bind]
        by_cases hn0 : psA.length = 0
        · rw [if_pos hn0, if_pos hn0]
          exact ⟨rfl, fun σf d psX h => by simp at h⟩
        · rw [if_neg hn0, if_neg hn0]
          refine ⟨rfl, fun σf d psX h => ?_⟩
          simp only [Except.ok.injEq, Prod.mk.injEq] at h
          obtain ⟨h1, -, -⟩ := h
          refine h1 ▸ offAgree_trans hoff1 ?_
          refine offAgree_mono ?_ (hoff2l σ4 det2 hp2)
          intro q hq
          exact List.mem_append_right _ (hB1.mem_iff.mp hq)

/-! ## Analysis of the elimination phases (C5, C6) -/

/-- The pivot-search fold keeps the first row attaining the running maximum:
processing `range' m c` starting from best-so-far `k` (sound for `[i, m)`)
yields the least argmax over `[i, n)`. -/
lemma pivotLoop_argmax {a : Mat} {n i : ℕ} (ha : a.length = n)
    (hrows : ∀ r ∈ a, i < r.length) :
    ∀ (c m k : ℕ), i ≤ k → k < m → m + c = n →
      (∀ j, i ≤ j → j < m → |dget a j i| ≤ |dget a k i|) →
      (∀ j, i ≤ j → j < k → |dget a j i| < |dget a k i|) →
      ∃ r, pivotLoop a i (List.range' m c) k = .ok r ∧ i ≤ r ∧ r < n ∧
        (∀ j, i ≤ j → j < n → |dget a j i| ≤ |dget a r i|) ∧
        (∀ j, i ≤ j → j < r → |dget a j i| < |dget a r i|) := by
  intro c
  induction c with
  | zero =>
    intro m k hik hkm hmc hle hlt
    exact ⟨k, rfl, hik, by omega, fun j hij hjn => hle j hij (by omega), hlt⟩
  | succ c ih =>
    intro m k hik hkm hmc hle hlt
    have hma : m < a.length := by omega
    have hka : k < a.length := by omega
    rw [List.range'_succ, pivotLoop,
      getE_ok hma (hrows _ (getD_mem hma)), ok_bind,
      getE_ok hka (hrows _ (getD_mem hka)), ok_bind]
    by_cases hcmp : |dget a m i| > |dget a k i|
    · rw [if_pos hcmp]
      refine ih (m + 1) m (by omega) (by omega) (by omega) ?_ ?_
      · intro j hij hjm
        rcases Nat.lt_succ_iff_lt_or_eq.mp hjm with hj | rfl
        · exact le_of_lt (lt_of_le_of_lt (hle j hij hj) hcmp)
        · exact le_refl _
      · intro j hij hjm
        exact lt_of_le_of_lt (hle j hij hjm) hcmp
    · rw [if_neg hcmp]
      refine ih (m + 1) k hik (by omega) (by omega) ?_ hlt
      intro j hij hjm
      rcases Nat.lt_succ_iff_lt_or_eq.mp hjm with hj | rfl
      · exact hle j hij hj
      · exact not_lt.mp hcmp

/-- One forward-elimination step either keeps `det` and the swap count, or
negates `det` and increments the swap count — exactly when line 57 runs. -/
lemma phase1Step_sign {n p i : ℕ} {a b a1 b1 : Mat} {det det1 : ℚ} {s s1 : ℕ}
    (h : phase1Step n p i a b det s = .ok (a1, b1, det1, s1)) :
    (det1 = det ∧ s1 = s) ∨ (det1 = -det ∧ s1 = s + 1) := by
  unfold phase1Step at h
  cases h1 : pivotLoop a i (List.range' (i + 1) (n - 1 - i)) i with
  | error e => simp [h1] at h
  | ok k =>
    simp only [h1, ok_bind] at h
    by_cases hk : k ≠ i
    · rw [if_pos hk] at h
      cases h2 : swapRows a i k with
      | error e => simp [h2] at h
      | ok a2 =>
        simp only [h2, ok_bind] at h
        cases h3 : swapRows b i k with
        | error e => simp [h3] at h
        | ok b2 =>
          simp only [h3, ok_bind] at h
          cases h4 : elimRows n p i (List.range' (i + 1) (n - 1 - i)) (a2, b2) with
          | error e => simp [h4] at h
          | ok st =>
            obtain ⟨a3, b3⟩ := st
            simp only [h4, ok_bind, Except.ok.injEq, Prod.mk.injEq] at h
            exact Or.inr ⟨h.2.2.1.symm, h.2.2.2.symm⟩
    · rw [if_neg (by simp [hk])] at h
      cases h4 : elimRows n p i (List.range' (i + 1) (n - 1 - i)) (a, b) with
      | error e => simp [h4] at h
      | ok st =>
        obtain ⟨a3, b3⟩ := st
        simp only [h4, ok_bind, Except.ok.injEq, Prod.mk.injEq] at h
        exact Or.inl ⟨h.2.2.1.symm, h.2.2.2.symm⟩

/-- Through forward elimination the determinant accumulator stays equal to
`(-1)` raised to the number of row swaps performed so far. -/
lemma phase1_sign {n p : ℕ} : ∀ {is : List ℕ} {a b a1 b1 : Mat}
    {det det1 : ℚ} {s s1 : ℕ},
    phase1 n p is (a, b, det, s) = .ok (a1, b1, det1, s1) →
    det = (-1 : ℚ) ^ s → det1 = (-1 : ℚ) ^ s1 := by
  intro is
  induction is with
  | nil =>
    intro a b a1 b1 det det1 s s1 h hdet
    simp only [phase1, Except.ok.injEq, Prod.mk.injEq] at h
    obtain ⟨-, -, h3, h4⟩ := h
    rw [← h3, ← h4]
    exact hdet
  | cons i is ih =>
    intro a b a1 b1 det det1 s s1 h hdet
    rw [phase1] at h
    cases h1 : phase1Step n p i a b det s with
    | error e => simp [h1] at h
    | ok st =>
      rw [h1, ok_bind] at h
      obtain ⟨a2, b2, det2, s2⟩ := st
      refine ih h ?_
      rcases phase1Step_sign h1 with ⟨h2, h3⟩ | ⟨h2, h3⟩
      · rw [h2, h3, hdet]
      · rw [h2, h3, hdet, pow_succ]
        ring

/-- Back-substitution multiplies the determinant accumulator by each diagonal
entry it visits, and can only succeed if each such divisor is nonzero. -/
lemma phase2_det {a : Mat} {n p : ℕ} : ∀ {is : List ℕ} {b b1 : Mat}
    {det det1 : ℚ},
    phase2 a n p is (b, det) = .ok (b1, det1) →
    det1 = det * (is.map fun i => dget a i i).prod ∧
    ∀ i ∈ is, ∃ v, getE a i i = .ok v ∧ v ≠ 0 := by
  intro is
  induction is with
  | nil =>
    intro b b1 det det1 h
    simp only [phase2, Except.ok.injEq, Prod.mk.injEq] at h
    simp [← h.2, List.prod_nil]
  | cons i is ih =>
    intro b b1 det det1 h
    rw [phase2] at h
    cases h1 : backJLoop a i p (List.range' (i + 1) (n - 1 - i)) b with
    | error e => rw [h1] at h; simp at h
    | ok b2 =>
      rw [h1, ok_bind] at h
      cases h2 : getE a i i with
      | error e => rw [h2] at h; simp at h
      | ok piv =>
        rw [h2, ok_bind] at h
        by_cases hz : piv = 0
        · rw [hz] at h
          have hdz : divE 1 0 = (.error .zeroDiv : Except Err ℚ) := by
            rw [divE, if_pos rfl]
          rw [hdz] at h
          simp at h
        · have hdv : divE 1 piv = .ok (1 / piv) := by rw [divE, if_neg hz]
          rw [hdv, ok_bind] at h
          cases h3 : scaleRow b2 i (1 / piv) (List.range p) with
          | error e => rw [h3] at h; simp at h
          | ok b3 =>
            rw [h3, ok_bind] at h
            obtain ⟨hd, hnz⟩ := ih h
            constructor
            · rw [hd, List.map_cons, List.prod_cons, getE_ok_val h2]
              ring
            · intro x hx
              rcases List.mem_cons.mp hx with rfl | hx
              · exact ⟨piv, h2, hz⟩
              · exact hnz x hx

/-- A successful `gauss` run decomposes into a successful `headLen`, a
successful forward elimination, a successful back-substitution, and `n ≠ 0`. -/
lemma gauss_ok_destruct {a b : Mat} {d : ℚ} {x : Mat}
    (h : gauss a b = .ok (d, x)) :
    ∃ p a1 b1 det1 s, headLen b = .ok p ∧
      phase1 a.length p (List.range (a.length - 1)) (a, b, 1, 0) =
        .ok (a1, b1, det1, s) ∧
      phase2 a1 a.length p (List.range a.length).reverse (b1, det1) = .ok (x, d) ∧
      a.length ≠ 0 := by
  unfold gauss at h
  cases h1 : headLen b with
  | error e => simp [h1] at h
  | ok p =>
    simp only [h1, ok_bind] at h
    cases h2 : phase1 a.length p (List.range (a.length - 1)) (a, b, 1, 0) with
    | error e => simp [h2] at h
    | ok st =>
      obtain ⟨a1, b1, det1, s⟩ := st
      simp only [h2, ok_bind] at h
      cases h3 : phase2 a1 a.length p (List.range a.length).reverse (b1, det1) with
      | error e => simp [h3] at h
      | ok r =>
        obtain ⟨b2, det2⟩ := r
        simp only [h3, ok_bind] at h
        by_cases hn : a.length = 0
        · rw [if_pos hn] at h
          simp at h
        · rw [if_neg hn] at h
          simp only [Except.ok.injEq, Prod.mk.injEq] at h
          obtain ⟨rfl, rfl⟩ := h
          exact ⟨p, a1, b1, det1, s, rfl, h2, h3, hn⟩

/-- `phase1` over a concatenated index list runs the two pieces in sequence;
in particular an error in any step aborts the whole loop. -/
lemma phase1_append (n p : ℕ) : ∀ (l1 l2 : List ℕ) (st : Mat × Mat × ℚ × ℕ),
    phase1 n p (l1 ++ l2) st = phase1 n p l1 st >>= phase1 n p l2 := by
  intro l1
  induction l1 with
  | nil => intro l2 st; simp [phase1]
  | cons i is ih =>
    intro l2 st
    obtain ⟨a, b, det, s⟩ := st
    show phase1 n p (i :: (is ++ l2)) (a, b, det, s) = _
    conv_lhs => rw [phase1]
    conv_rhs => rw [phase1]
    cases h1 : phase1Step n p i a b det s with
    | error e => simp [h1]
    | ok st1 => simp only [h1, ok_bind]; exact ih l2 st1

/-- `phase2` over a concatenated index list runs the two pieces in sequence;
in particular an error in any step aborts the whole loop. -/
lemma phase2_append (a : Mat) (n p : ℕ) : ∀ (l1 l2 : List ℕ) (st : Mat × ℚ),
    phase2 a n p (l1 ++ l2) st = phase2 a n p l1 st >>= phase2 a n p l2 := by
  intro l1
  induction l1 with
  | nil => intro l2 st; simp [phase2]
  | cons i is ih =>
    intro l2 st
    obtain ⟨b, det⟩ := st
    show phase2 a n p (i :: (is ++ l2)) (b, det) = _
    conv_lhs => rw [phase2]
    conv_rhs => rw [phase2]
    cases h1 : backJLoop a i p (List.range' (i + 1) (n - 1 - i)) b with
    | error e => simp [h1]
    | ok b2 =>
      simp only [h1, ok_bind]
      cases h2 : getE a i i with
      | error e => simp [h2]
      | ok piv =>
        simp only [h2, ok_bind]
        cases h3 : divE 1 piv with
        | error e => simp [h3]
        | ok t =>
          simp only [h3, ok_bind]
          cases h4 : scaleRow b2 i t (List.range p) with
          | error e => simp [h4]
          | ok b3 => simp only [h4, ok_bind]; exact ih l2 (b3, det * piv)

/-! ## Concrete-evaluation claims -/

/-- C4: `gauss([[2, 0, -1], [0, 5, 6], [0, -1, 1]], [[2], [1], [2]])` returns
determinant `22.0` and solution matrix `[[1.5], [-1.0], [1.0]]`. -/
theorem gauss_concrete_scenario :
    gauss [[2, 0, -1], [0, 5, 6], [0, -1, 1]] [[2], [1], [2]] =
      .ok (22, [[3/2], [-1], [1]]) := by
  norm_num [gauss, headLen, getRow, phase1, phase1Step, pivotLoop, elimRows, rowSub,
    swapRows, getE, set2, divE, phase2, backJLoop, scaleRow, List.range', List.range_succ,
    bind, Except.bind]

/-- C1: on the failing input `A = [[1,0],[0,1]]` (identity), `B = [[1,2],[3,4]]`,
`matmul` returns `[[1,3],[2,4]]` — the transpose of `B` — while standard matrix
multiplication `C[i][j] = Σ_k A[i][k]·B[k][j]` gives `[[1,2],[3,4]]`; the two
disagree, because line 142 indexes the second operand as `b[j][k]`. -/
theorem matmul_at_failing_input :
    matmul [[1, 0], [0, 1]] [[1, 2], [3, 4]] = .ok [[1, 3], [2, 4]] ∧
    mulSpec [[1, 0], [0, 1]] [[1, 2], [3, 4]] = [[1, 2], [3, 4]] ∧
    ([[1, 3], [2, 4]] : Mat) ≠ [[1, 2], [3, 4]] := by
  refine ⟨?_, ?_, by norm_num⟩
  · norm_num [matmul, headLen, getRow, matmulI, matmulJ, dotSum, getE, set2, zeromat,
      List.range_succ, List.replicate, bind, Except.bind]
  · norm_num [mulSpec, dget, List.range_succ]

/-- C2: on the failing input `A = [[1,1],[0,1]]` (invertible, determinant 1) and
`B = I`, `gauss` returns the true inverse `X = [[1,-1],[0,1]]` (the standard
product `A·X` is `I`), but `matmul(A, X)` returns `[[0,1],[-1,1]]`, which differs
from `I` by entries of magnitude 1 — far beyond any floating-point tolerance —
because `matmul` computes `A·Xᵀ`. -/
theorem gauss_inverse_matmul_failing_input :
    gauss [[1, 1], [0, 1]] [[1, 0], [0, 1]] = .ok (1, [[1, -1], [0, 1]]) ∧
    mulSpec [[1, 1], [0, 1]] [[1, -1], [0, 1]] = [[1, 0], [0, 1]] ∧
    matmul [[1, 1], [0, 1]] [[1, -1], [0, 1]] = .ok [[0, 1], [-1, 1]] ∧
    ([[0, 1], [-1, 1]] : Mat) ≠ [[1, 0], [0, 1]] := by
  refine ⟨?_, ?_, ?_, by norm_num⟩
  · norm_num [gauss, headLen, getRow, phase1, phase1Step, pivotLoop, elimRows, rowSub,
      swapRows, getE, set2, divE, phase2, backJLoop, scaleRow, List.range', List.range_succ,
      bind, Except.bind]
  · norm_num [mulSpec, dget, List.range_succ]
  · norm_num [matmul, headLen, getRow, matmulI, matmulJ, dotSum, getE, set2, zeromat,
      List.range_succ, List.replicate, bind, Except.bind]

/-- C3 counterexample: `A = [[1,0,5],[0,1,7]]` is not square (2 rows of length
3), yet `gauss(A, [[2],[3]])` does not fail with any error: it returns
`(1.0, [[2],[3]])`, computed from the leading 2×2 block of `A`.  There is no
dimension check anywhere in `gauss`. -/
theorem gauss_no_dimension_check_cex :
    ([[1, 0, 5], [0, 1, 7]] : Mat).length = 2 ∧
    (([[1, 0, 5], [0, 1, 7]] : Mat).headI.length = 3) ∧
    gauss [[1, 0, 5], [0, 1, 7]] [[2], [3]] = .ok (1, [[2], [3]]) := by
  refine ⟨by norm_num, by norm_num, ?_⟩
  norm_num [gauss, headLen, getRow, phase1, phase1Step, pivotLoop, elimRows, rowSub,
    swapRows, getE, set2, divE, phase2, backJLoop, scaleRow, List.range', List.range_succ,
    bind, Except.bind]

/-- C3 amended: `gauss` performs no dimension validation at all.  A call with a
non-square `A` whose rows are at least as long as the row count, or with extra
rows in `B`, succeeds silently, computing on the leading `n×n` block of `A` and
the first `n` rows of `B`: `gauss([[1,0,5],[0,1,7]], [[2],[3]]) = (1.0, [[2],[3]])`
and `gauss(I₂, [[5],[6],[7]]) = (1.0, [[5],[6],[7]])`. -/
theorem gauss_no_dimension_check :
    gauss [[1, 0, 5], [0, 1, 7]] [[2], [3]] = .ok (1, [[2], [3]]) ∧
    gauss [[1, 0], [0, 1]] [[5], [6], [7]] = .ok (1, [[5], [6], [7]]) := by
  constructor <;>
    norm_num [gauss, headLen, getRow, phase1, phase1Step, pivotLoop, elimRows, rowSub,
      swapRows, getE, set2, divE, phase2, backJLoop, scaleRow, List.range', List.range_succ,
      bind, Except.bind]

/-- C8: for rectangular inputs (row-0 length read succeeds on both operands),
`matmul` raises `ValueError` ("Incompatible dimensions") exactly when the inner
dimensions disagree (`p ≠ len(b)`), and the check precedes all computation; a
successful call returns a complete `n×q` matrix (every row filled to length
`q`), never a partial result — failure is an `Except.error` carrying no matrix. -/
theorem matmul_dimension_check (a b : Mat) (p q : ℕ)
    (ha : headLen a = .ok p) (hb : headLen b = .ok q) :
    (matmul a b = .error .valueError ↔ p ≠ b.length) ∧
    (∀ c, matmul a b = .ok c → c.length = a.length ∧ ∀ r ∈ c, r.length = q) := by
  have hm : matmul a b = if p ≠ b.length then .error .valueError
      else matmulI a b p q (List.range a.length) (zeromat a.length q) := by
    unfold matmul
    rw [ha, ok_bind, hb, ok_bind]
  constructor
  · constructor
    · intro h
      by_contra hne
      rw [hm, if_neg (by simp [hne])] at h
      exact absurd (matmulI_err_kind h) (by simp)
    · intro h
      rw [hm, if_pos h]
  · intro c hc
    rw [hm] at hc
    by_cases hne : p ≠ b.length
    · rw [if_pos hne] at hc
      exact absurd hc (by simp)
    · rw [if_neg (by simp [hne])] at hc
      refine matmulI_shape hc (by simp [zeromat]) ?_
      intro r hr
      simp only [zeromat, List.mem_map] at hr
      obtain ⟨i, _, rfl⟩ := hr
      simp

/-- C8 witness: the spec's example shapes, a 2×3 times a 2×2 (inner dimensions
3 and 2 disagree, so `ValueError`), at `A = [[1,2,3],[4,5,6]]`, `B = [[1,2],[3,4]]`. -/
theorem matmul_dimension_check_witness :
    (matmul [[1, 2, 3], [4, 5, 6]] [[1, 2], [3, 4]] = .error .valueError ↔
      3 ≠ ([[1, 2], [3, 4]] : Mat).length) ∧
    (∀ c, matmul [[1, 2, 3], [4, 5, 6]] [[1, 2], [3, 4]] = .ok c →
      c.length = ([[1, 2, 3], [4, 5, 6]] : Mat).length ∧ ∀ r ∈ c, r.length = 2) :=
  matmul_dimension_check [[1, 2, 3], [4, 5, 6]] [[1, 2], [3, 4]] 3 2 rfl rfl

/-- C10: for rectangular nonempty inputs that pass the inner-dimension check
(`p = len(b)`) but whose second operand has more columns than rows
(`len(b) < q`), the inner sum `a[i][k]*b[j][k]` reads row `j = len(b)` of `b`,
out of range, so `matmul` raises `IndexError` instead of returning a matrix;
consequently a completed `matmul` call implies `q ≤ len(b)`. -/
theorem matmul_index_overrun (a b : Mat) (p q : ℕ)
    (har : ∀ r ∈ a, r.length = p) (hbr : ∀ r ∈ b, r.length = q)
    (hn : 0 < a.length) (hp1 : 0 < b.length) :
    (p = b.length → b.length < q → matmul a b = .error .indexError) ∧
    (∀ c, matmul a b = .ok c → p = b.length → q ≤ b.length) := by
  have ha0 : headLen a = .ok p := headLen_ok hn har
  have hb0 : headLen b = .ok q := headLen_ok hp1 hbr
  have main : p = b.length → b.length < q → matmul a b = .error .indexError := by
    intro hpp hq
    have hm : matmul a b = matmulI a b p q (List.range a.length) (zeromat a.length q) := by
      unfold matmul
      rw [ha0, ok_bind, hb0, ok_bind, if_neg (by simp [hpp])]
    have hsplit : List.range q =
        List.range' 0 b.length ++ List.range' b.length (q - b.length) := by
      rw [List.range_eq_range']
      have h := List.range'_append 0 b.length (q - b.length) 1
      simp only [Nat.one_mul, Nat.zero_add] at h
      rw [h]
      congr 1
      omega
    obtain ⟨c1, hc1⟩ : ∃ c1,
        matmulJ a b 0 p (List.range' 0 b.length) (zeromat a.length q) = .ok c1 := by
      apply matmulJ_ok
      intro j hj
      have hjlt : j < b.length := by
        have := List.mem_range'_1.mp hj
        omega
      apply dotSum_ok hn hjlt
      · intro k hk
        rw [har _ (getD_mem hn)]
        exact List.mem_range.mp hk
      · intro k hk
        rw [hbr _ (getD_mem hjlt)]
        have := List.mem_range.mp hk
        omega
    have hfail : matmulJ a b 0 p (List.range' b.length (q - b.length)) c1 =
        .error .indexError := by
      obtain ⟨m, hmq⟩ : ∃ m, q - b.length = m + 1 := ⟨q - b.length - 1, by omega⟩
      rw [hmq, List.range'_succ, matmulJ]
      have hd : dotSum a b 0 b.length (List.range p) = .error .indexError := by
        obtain ⟨p0, hp0⟩ : ∃ p0, p = p0 + 1 := ⟨p - 1, by omega⟩
        rw [hp0, List.range_succ_eq_map, dotSum]
        rw [getE_ok hn (by rw [har _ (getD_mem hn)]; omega), ok_bind]
        have hb1 : getE b b.length 0 = .error .indexError := by
          unfold getE
          rw [getRow_err (le_refl _)]
          rfl
        rw [hb1]
        rfl
      rw [hd]
      rfl
    obtain ⟨t, ht⟩ : ∃ t, List.range a.length = 0 :: t := by
      obtain ⟨n1, hn1⟩ : ∃ n1, a.length = n1 + 1 := ⟨a.length - 1, by omega⟩
      rw [hn1, List.range_succ_eq_map]
      exact ⟨_, rfl⟩
    rw [hm, ht, matmulI, hsplit, matmulJ_append, hc1, ok_bind, hfail]
    rfl
  refine ⟨main, ?_⟩
  intro c hc hpp
  by_contra hq
  rw [main hpp (by omega)] at hc
  exact absurd hc (by simp)

/-- C10 witness: `A = [[1]]` (1×1), `B = [[1,2]]` (1×2): the inner-dimension
check passes (1 = 1) but `q = 2 > 1` rows, so `matmul` raises `IndexError`. -/
theorem matmul_index_overrun_witness :
    (1 = ([[1, 2]] : Mat).length → ([[1, 2]] : Mat).length < 2 →
      matmul [[1]] [[1, 2]] = .error .indexError) ∧
    (∀ c, matmul [[1]] [[1, 2]] = .ok c → 1 = ([[1, 2]] : Mat).length →
      2 ≤ ([[1, 2]] : Mat).length) :=
  matmul_index_overrun [[1]] [[1, 2]] 1 2 (by simp) (by simp)
    (by simp) (by simp)

/-- C9: for `p, q ≥ 1`, `zeromat p q` is a `p×q` matrix of zeros. -/
theorem zeromat_spec (p q : ℕ) (_hp : 0 < p) (_hq : 0 < q) :
    (zeromat p q).length = p ∧
    ∀ r ∈ zeromat p q, r.length = q ∧ ∀ x ∈ r, x = 0 := by
  refine ⟨by simp [zeromat], ?_⟩
  intro r hr
  simp only [zeromat, List.mem_map] at hr
  obtain ⟨i, _, rfl⟩ := hr
  exact ⟨by simp, fun x hx => List.eq_of_mem_replicate hx⟩

/-- C9 witness: the spec's concrete scenario `zeros(3,3)`. -/
theorem zeromat_spec_witness :
    (zeromat 3 3).length = 3 ∧
    ∀ r ∈ zeromat 3 3, r.length = 3 ∧ ∀ x ∈ r, x = 0 :=
  zeromat_spec 3 3 (by norm_num) (by norm_num)

/-- C5: (a) the pivot search for column `i` (comparing rows `i+1..n-1`
against the running best, initially `k = i`, with strict `>`) returns the
lowest-index row among `i..n-1` attaining the maximum absolute value in
column `i`; (b) every successful `gauss` run returns a determinant equal to
`(-1)^s` times the product of the diagonal pivots left after forward
elimination, where `s` is the number of row swaps performed (the accumulator
leaving phase 1 is exactly `(-1)^s`). -/
theorem gauss_pivot_and_determinant :
    (∀ (a : Mat) (n i : ℕ), a.length = n → (∀ r ∈ a, i < r.length) → i < n →
      ∃ k, pivotLoop a i (List.range' (i + 1) (n - 1 - i)) i = .ok k ∧
        i ≤ k ∧ k < n ∧
        (∀ j, i ≤ j → j < n → |dget a j i| ≤ |dget a k i|) ∧
        (∀ j, i ≤ j → j < k → |dget a j i| < |dget a k i|)) ∧
    (∀ (a b : Mat) (d : ℚ) (x : Mat), gauss a b = .ok (d, x) →
      ∃ p a1 b1 s, headLen b = .ok p ∧
        phase1 a.length p (List.range (a.length - 1)) (a, b, 1, 0) =
          .ok (a1, b1, (-1) ^ s, s) ∧
        d = (-1) ^ s * diagProd a1 a.length) := by
  constructor
  · intro a n i ha hr hi
    refine pivotLoop_argmax ha hr (n - 1 - i) (i + 1) i (le_refl i) (by omega)
      (by omega) ?_ ?_
    · intro j hij hji
      have hj : j = i := by omega
      subst hj
      exact le_refl _
    · intro j hij hji
      exact absurd hji (by omega)
  · intro a b d x h
    obtain ⟨p, a1, b1, det1, s, h1, h2, h3, hn⟩ := gauss_ok_destruct h
    have hsign : det1 = (-1 : ℚ) ^ s := phase1_sign h2 (by norm_num)
    obtain ⟨hd, -⟩ := phase2_det h3
    refine ⟨p, a1, b1, s, h1, by rw [← hsign]; exact h2, ?_⟩
    rw [hd, hsign, List.map_reverse, List.prod_reverse]
    rfl

/-- C5 witness: the pivot property at the spec's concrete matrix (column 0)
and the determinant decomposition for its concrete `gauss` run. -/
theorem gauss_pivot_and_determinant_witness :
    (∃ k, pivotLoop [[2, 0, -1], [0, 5, 6], [0, -1, 1]] 0
        (List.range' (0 + 1) (3 - 1 - 0)) 0 = .ok k ∧ 0 ≤ k ∧ k < 3 ∧
      (∀ j, 0 ≤ j → j < 3 →
        |dget [[2, 0, -1], [0, 5, 6], [0, -1, 1]] j 0| ≤
          |dget [[2, 0, -1], [0, 5, 6], [0, -1, 1]] k 0|) ∧
      (∀ j, 0 ≤ j → j < k →
        |dget [[2, 0, -1], [0, 5, 6], [0, -1, 1]] j 0| <
          |dget [[2, 0, -1], [0, 5, 6], [0, -1, 1]] k 0|)) ∧
    (∃ p a1 b1 s, headLen [[2], [1], [2]] = .ok p ∧
      phase1 ([[2, 0, -1], [0, 5, 6], [0, -1, 1]] : Mat).length p
        (List.range (([[2, 0, -1], [0, 5, 6], [0, -1, 1]] : Mat).length - 1))
        ([[2, 0, -1], [0, 5, 6], [0, -1, 1]], [[2], [1], [2]], 1, 0) =
        .ok (a1, b1, (-1) ^ s, s) ∧
      (22 : ℚ) = (-1) ^ s *
        diagProd a1 ([[2, 0, -1], [0, 5, 6], [0, -1, 1]] : Mat).length) :=
  ⟨gauss_pivot_and_determinant.1 [[2, 0, -1], [0, 5, 6], [0, -1, 1]] 3 0
      (by norm_num)
      (by intro r hr; simp at hr; rcases hr with rfl | rfl | rfl <;> norm_num)
      (by norm_num),
   gauss_pivot_and_determinant.2 [[2, 0, -1], [0, 5, 6], [0, -1, 1]]
      [[2], [1], [2]] 22 [[3/2], [-1], [1]]
      (by norm_num [gauss, headLen, getRow, phase1, phase1Step, pivotLoop, elimRows,
        rowSub, swapRows, getE, set2, divE, phase2, backJLoop, scaleRow, List.range',
        List.range_succ, bind, Except.bind])⟩

/-- C6: zero divisors abort the computation with `ZeroDivisionError` at the
point of division and no solution matrix is returned: (1) a forward
elimination step whose pivot entry `a[i][i]` reads as exactly `0` makes the
elimination loop fail; (2) a back-substitution step whose `a[i][i]` is `0`
makes phase 2 fail at `t = 1/a[i][i]`; (3) a phase-1 error makes the whole
`gauss` call return that error (no partial result); (4) likewise for a
phase-2 error; (5) conversely a successful `gauss` call implies every
diagonal divisor `a[i][i]` used during back-substitution was nonzero. -/
theorem gauss_zero_pivot_fails :
    (∀ (n p i j : ℕ) (js : List ℕ) (a b : Mat) (x : ℚ),
      getE a j i = .ok x → getE a i i = .ok 0 →
      elimRows n p i (j :: js) (a, b) = .error .zeroDiv) ∧
    (∀ (a : Mat) (n p i : ℕ) (is : List ℕ) (b b1 : Mat) (det : ℚ),
      backJLoop a i p (List.range' (i + 1) (n - 1 - i)) b = .ok b1 →
      getE a i i = .ok 0 →
      phase2 a n p (i :: is) (b, det) = .error .zeroDiv) ∧
    (∀ (a b : Mat) (p : ℕ) (e : Err),
      headLen b = .ok p →
      phase1 a.length p (List.range (a.length - 1)) (a, b, 1, 0) = .error e →
      gauss a b = .error e) ∧
    (∀ (a b a1 b1 : Mat) (p : ℕ) (det1 : ℚ) (s : ℕ) (e : Err),
      headLen b = .ok p →
      phase1 a.length p (List.range (a.length - 1)) (a, b, 1, 0) =
        .ok (a1, b1, det1, s) →
      phase2 a1 a.length p (List.range a.length).reverse (b1, det1) = .error e →
      gauss a b = .error e) ∧
    (∀ (a b : Mat) (d : ℚ) (x : Mat), gauss a b = .ok (d, x) →
      ∃ p a1 b1 det1 s, headLen b = .ok p ∧
        phase1 a.length p (List.range (a.length - 1)) (a, b, 1, 0) =
          .ok (a1, b1, det1, s) ∧
        ∀ i < a.length, ∃ v, getE a1 i i = .ok v ∧ v ≠ 0) := by
  refine ⟨?_, ?_, ?_, ?_, ?_⟩
  · intro n p i j js a b x h1 h2
    have hdz : divE x 0 = (.error .zeroDiv : Except Err ℚ) := by
      rw [divE, if_pos rfl]
    simp only [elimRows, h1, h2, hdz, ok_bind, error_bind]
  · intro a n p i is b b1 det h1 h2
    have hdz : divE 1 0 = (.error .zeroDiv : Except Err ℚ) := by
      rw [divE, if_pos rfl]
    simp only [phase2, h1, h2, hdz, ok_bind, error_bind]
  · intro a b p e h1 h2
    simp only [gauss, h1, ok_bind, h2, error_bind]
  · intro a b a1 b1 p det1 s e h1 h2 h3
    simp only [gauss, h1, ok_bind, h2, h3, error_bind]
  · intro a b d x h
    obtain ⟨p, a1, b1, det1, s, h1, h2, h3, hn⟩ := gauss_ok_destruct h
    obtain ⟨-, hnz⟩ := phase2_det h3
    refine ⟨p, a1, b1, det1, s, h1, h2, ?_⟩
    intro i hi
    exact hnz i (by rw [List.mem_reverse]; exact List.mem_range.mpr hi)

/-- C6 witness: all five parts at concrete inputs, in particular the spec's
singular example `A = [[0,0],[0,1]]` (zero pivot in elimination) and
`A = [[1,0],[0,0]]` (zero pivot at back-substitution normalisation), for both
of which `gauss` aborts with the division error and returns nothing. -/
theorem gauss_zero_pivot_fails_witness :
    elimRows 2 1 0 (1 :: []) ([[0, 0], [0, 1]], [[1], [1]]) = .error .zeroDiv ∧
    phase2 [[1, 0], [0, 0]] 2 1 (1 :: []) ([[1], [1]], 1) = .error .zeroDiv ∧
    gauss [[0, 0], [0, 1]] [[1], [1]] = .error .zeroDiv ∧
    gauss [[1, 0], [0, 0]] [[1], [1]] = .error .zeroDiv ∧
    (∃ p a1 b1 det1 s, headLen [[2], [1], [2]] = .ok p ∧
      phase1 ([[2, 0, -1], [0, 5, 6], [0, -1, 1]] : Mat).length p
        (List.range (([[2, 0, -1], [0, 5, 6], [0, -1, 1]] : Mat).length - 1))
        ([[2, 0, -1], [0, 5, 6], [0, -1, 1]], [[2], [1], [2]], 1, 0) =
        .ok (a1, b1, det1, s) ∧
      ∀ i < ([[2, 0, -1], [0, 5, 6], [0, -1, 1]] : Mat).length,
        ∃ v, getE a1 i i = .ok v ∧ v ≠ 0) :=
  ⟨gauss_zero_pivot_fails.1 2 1 0 1 [] [[0, 0], [0, 1]] [[1], [1]] 0 rfl rfl,
   gauss_zero_pivot_fails.2.1 [[1, 0], [0, 0]] 2 1 1 [] [[1], [1]] [[1], [1]] 1
      rfl rfl,
   gauss_zero_pivot_fails.2.2.1 [[0, 0], [0, 1]] [[1], [1]] 1 .zeroDiv rfl
      (by norm_num [phase1, phase1Step, pivotLoop, elimRows, rowSub, swapRows,
        getE, getRow, set2, divE, List.range', List.range_succ, bind, Except.bind]),
   gauss_zero_pivot_fails.2.2.2.1 [[1, 0], [0, 0]] [[1], [1]] [[1, 0], [0, 0]]
      [[1], [1]] 1 1 0 .zeroDiv rfl
      (by norm_num [phase1, phase1Step, pivotLoop, elimRows, rowSub, swapRows,
        getE, getRow, set2, divE, List.range', List.range_succ, bind, Except.bind])
      (by norm_num [phase2, backJLoop, rowSub, scaleRow, getE, getRow, set2, divE,
        List.range', List.range_succ, bind, Except.bind]),
   gauss_zero_pivot_fails.2.2.2.2 [[2, 0, -1], [0, 5, 6], [0, -1, 1]]
      [[2], [1], [2]] 22 [[3/2], [-1], [1]]
      (by norm_num [gauss, headLen, getRow, phase1, phase1Step, pivotLoop, elimRows,
        rowSub, swapRows, getE, set2, divE, phase2, backJLoop, scaleRow, List.range',
        List.range_succ, bind, Except.bind])⟩

/-- C7: in the reference-semantics model, for caller matrices whose row
objects live in the initial store (and do not internally alias one row at two
indices, the situation `copy.deepcopy` is modelled for), running `gauss`
(1) computes exactly the pure value-level `gauss` of the caller's matrix
values — so its outcome, determinant and solution values included, depends
only on those values, and repeated calls on the same inputs return equal
results — and (2) leaves the values of the caller's `A` and `B` unchanged
after a completed call: every mutation lands on the fresh rows allocated by
the deep copies on lines 44-45.  The caller's two matrices may freely share
rows with each other (e.g. `gauss(A, A)`). -/
theorem gauss_value_semantics (σ : Store) (pa pb : Ptrs)
    (hpa : ∀ q ∈ pa, q < σ.length) (hpb : ∀ q ∈ pb, q < σ.length)
    (_hna : pa.Nodup) (_hnb : pb.Nodup) :
    Except.map (fun r => (r.2.1, matVal r.1 r.2.2)) (hGauss σ pa pb) =
      gauss (matVal σ pa) (matVal σ pb) ∧
    ∀ σf d psX, hGauss σ pa pb = .ok (σf, d, psX) →
      matVal σf pa = matVal σ pa ∧ matVal σf pb = matVal σ pb := by
  have hred : hGauss σ pa pb =
      hGaussCore (deepcopy (deepcopy σ pa).1 pb).1 (deepcopy σ pa).2
        (deepcopy (deepcopy σ pa).1 pb).2 := rfl
  have hL1 : (deepcopy σ pa).1.length = σ.length + pa.length := deepcopy_len1 σ pa
  have hL2 : (deepcopy (deepcopy σ pa).1 pb).1.length =
      (deepcopy σ pa).1.length + pb.length := deepcopy_len1 _ pb
  have hndA : (deepcopy σ pa).2.Nodup := deepcopy_nodup2 σ pa
  have hndB : (deepcopy (deepcopy σ pa).1 pb).2.Nodup := deepcopy_nodup2 _ pb
  have hd1 : ∀ q ∈ (deepcopy σ pa).2, q ∉ (deepcopy (deepcopy σ pa).1 pb).2 := by
    intro q hq hq2
    have h1 := deepcopy_mem2 σ pa hq
    have h2 := deepcopy_mem2 _ pb hq2
    omega
  have hbA : ∀ q ∈ (deepcopy σ pa).2,
      q < (deepcopy (deepcopy σ pa).1 pb).1.length := by
    intro q hq
    have h1 := deepcopy_mem2 σ pa hq
    omega
  have hbB : ∀ q ∈ (deepcopy (deepcopy σ pa).1 pb).2,
      q < (deepcopy (deepcopy σ pa).1 pb).1.length := by
    intro q hq
    have h1 := deepcopy_mem2 _ pb hq
    omega
  have hpa1 : ∀ q ∈ pa, q < (deepcopy σ pa).1.length := by
    intro q hq
    have := hpa q hq
    omega
  have hvA : matVal (deepcopy (deepcopy σ pa).1 pb).1 (deepcopy σ pa).2 =
      matVal σ pa := by
    rw [matVal_deepcopy_other _ pb _ (fun q hq => (deepcopy_mem2 σ pa hq).2.trans_le
      (le_of_eq hL1.symm))]
    exact deepcopy_matVal σ pa
  have hvB : matVal (deepcopy (deepcopy σ pa).1 pb).1
      (deepcopy (deepcopy σ pa).1 pb).2 = matVal σ pb := by
    rw [deepcopy_matVal _ pb]
    exact matVal_deepcopy_other σ pa pb hpb
  obtain ⟨hcore1, hcore2⟩ := hGaussCore_corr _ _ _ hndA hndB hd1 hbA hbB
  constructor
  · rw [hred, hcore1, hvA, hvB]
  · intro σf d psX h
    rw [hred] at h
    have hoff := hcore2 σf d psX h
    have hout_a : ∀ q ∈ pa,
        q ∉ (deepcopy σ pa).2 ++ (deepcopy (deepcopy σ pa).1 pb).2 := by
      intro q hq hmem
      have hqs := hpa q hq
      rcases List.mem_append.mp hmem with hm | hm
      · have := deepcopy_mem2 σ pa hm
        omega
      · have := deepcopy_mem2 _ pb hm
        omega
    have hout_b : ∀ q ∈ pb,
        q ∉ (deepcopy σ pa).2 ++ (deepcopy (deepcopy σ pa).1 pb).2 := by
      intro q hq hmem
      have hqs := hpb q hq
      rcases List.mem_append.mp hmem with hm | hm
      · have := deepcopy_mem2 σ pa hm
        omega
      · have := deepcopy_mem2 _ pb hm
        omega
    constructor
    · calc matVal σf pa
          = matVal (deepcopy (deepcopy σ pa).1 pb).1 pa :=
            matVal_of_offAgree hoff hout_a
        _ = matVal (deepcopy σ pa).1 pa := matVal_deepcopy_other _ pb pa hpa1
        _ = matVal σ pa := matVal_deepcopy_other σ pa pa hpa
    · calc matVal σf pb
          = matVal (deepcopy (deepcopy σ pa).1 pb).1 pb :=
            matVal_of_offAgree hoff hout_b
        _ = matVal (deepcopy σ pa).1 pb :=
            matVal_deepcopy_other _ pb pb (fun q hq => by
              have := hpb q hq
              omega)
        _ = matVal σ pb := matVal_deepcopy_other σ pa pb hpb

/-- C7 witness: the spec's concrete scenario laid out in a store — caller's
`A` is rows `0..2`, caller's `B` is rows `3..5` — `gauss` under references
returns `(22.0, [[1.5],[-1.0],[1.0]])` like the pure function does, and a
completed run leaves the caller's row values untouched. -/
theorem gauss_value_semantics_witness :
    (Except.map (fun r => (r.2.1, matVal r.1 r.2.2))
        (hGauss [[2, 0, -1], [0, 5, 6], [0, -1, 1], [2], [1], [2]] [0, 1, 2] [3, 4, 5]) =
      gauss (matVal [[2, 0, -1], [0, 5, 6], [0, -1, 1], [2], [1], [2]] [0, 1, 2])
        (matVal [[2, 0, -1], [0, 5, 6], [0, -1, 1], [2], [1], [2]] [3, 4, 5]) ∧
    ∀ σf d psX,
      hGauss [[2, 0, -1], [0, 5, 6], [0, -1, 1], [2], [1], [2]] [0, 1, 2] [3, 4, 5] =
        .ok (σf, d, psX) →
      matVal σf [0, 1, 2] =
        matVal [[2, 0, -1], [0, 5, 6], [0, -1, 1], [2], [1], [2]] [0, 1, 2] ∧
      matVal σf [3, 4, 5] =
        matVal [[2, 0, -1], [0, 5, 6], [0, -1, 1], [2], [1], [2]] [3, 4, 5]) :=
  gauss_value_semantics [[2, 0, -1], [0, 5, 6], [0, -1, 1], [2], [1], [2]]
    [0, 1, 2] [3, 4, 5] (by decide) (by decide) (by decide) (by decide)

end AcseLa
